import Mathlib

/-!
Verification development for the stateful core of an XMPP client library:
the roster synchronization engine (entity store, group index, push/snapshot
reconciliation, JSON persistence) and the MUC room session's leave
classification.  The engine is shallowly embedded: addresses and group
names are strings, the entity store is an association list of mutable
records whose Python object identity is modelled by an instance id (`iid`)
that survives in-place updates, and each operation returns the list of fired
events, each paired with the state observed by the listeners of that event.
-/

namespace Roster

/-- Modelled from the spec: a roster line item as it appears on the wire in
a snapshot or push (§3, §4.1 of the spec; `aioxmpp.roster.xso.Item` is not
in the sources).  `subscription = "remove"` is the transient removal
sentinel. -/
structure WireItem where
  jid : String
  subscription : String := "none"
  ask : Option String := none
  approved : Bool := false
  name : Option String := none
  groups : List String := []
deriving Repr, DecidableEq

/-- Modelled from the spec: a roster query payload — a set of line items
plus an optional version token (`aioxmpp.roster.xso.Query` is not in the
sources). -/
structure Query where
  items : List WireItem := []
  ver : Option String := none
deriving Repr, DecidableEq

/-- Modelled from the spec: the stored, mutable roster item
(`aioxmpp.roster.service.Item` is not in the sources).  `iid` models
Python object identity: it is allocated when the record is created and is
preserved by every in-place update, so "same `iid`" means "same object
instance". -/
structure Item where
  iid : Nat
  jid : String
  subscription : String := "none"
  ask : Option String := none
  approved : Bool := false
  name : Option String := none
  groups : List String := []
deriving Repr, DecidableEq

/-- The events the roster engine can emit (spec §4.1, event surface). -/
inductive REvent where
  | entryAdded (jid : String)
  | entryRemoved (jid : String)
  | entryNameChanged (jid : String)
  | entrySubscriptionStateChanged (jid : String)
  | groupAdded (g : String)
  | groupRemoved (g : String)
  | entryAddedToGroup (jid : String) (g : String)
  | entryRemovedFromGroup (jid : String) (g : String)
  | initialRosterReceived
deriving Repr, DecidableEq

/-- The group index: association list from group name to the list of
member addresses (spec §3: "mapping group name → set of RosterItem
references"; §9: the index stores identifiers, never owned copies). -/
abbrev Index := List (String × List String)

/-- Modelled from the spec: the roster client's state — entity store,
derived group index, version token, and the allocator for instance ids. -/
structure RosterState where
  items : List Item := []
  groupIndex : Index := []
  ver : Option String := none
  nextIid : Nat := 0
deriving Repr, DecidableEq

/-- An emitted event together with the state the listeners of that event
observe (mutations commit before listeners run, spec §7). -/
abbrev Emit := RosterState × REvent

/-- Look up the stored item for an address. -/
def findItem (items : List Item) (j : String) : Option Item :=
  items.find? (fun it => decide (it.jid = j))

/-- Member list of a group in the index (empty if the group is no key). -/
def indexMembers : Index → String → List String
  | [], _ => []
  | e :: rest, g => if e.1 = g then e.2 else indexMembers rest g

/-- Whether a group name is a key of the index. -/
def indexHasKey : Index → String → Bool
  | [], _ => false
  | e :: rest, g => decide (e.1 = g) || indexHasKey rest g

/-- Remove an address from one group's member list, dropping the key if
the member list becomes empty (spec §3: "prune now-empty groups"). -/
def removeMember : Index → String → String → Index
  | [], _, _ => []
  | e :: rest, g, j =>
    if e.1 = g then
      let ms := e.2.filter (fun x => decide (x ≠ j))
      (if ms = [] then [] else [(g, ms)]) ++ rest
    else e :: removeMember rest g j

/-- Add an address to a group's member list, creating the key if needed. -/
def addMember : Index → String → String → Index
  | [], g, j => [(g, [j])]
  | e :: rest, g, j =>
    if e.1 = g then (g, if j ∈ e.2 then e.2 else e.2 ++ [j]) :: rest
    else e :: addMember rest g j

/-- Remove an address from each of the given groups, firing one
`groupRemoved` event for every key that disappears (last member gone). -/
def removeFromGroups : Index → String → List String → Index × List REvent
  | idx, _, [] => (idx, [])
  | idx, j, g :: gs =>
    let idx1 := removeMember idx g j
    let ev := if indexHasKey idx g && !(indexHasKey idx1 g) then
        [REvent.groupRemoved g] else []
    let r := removeFromGroups idx1 j gs
    (r.1, ev ++ r.2)

/-- Add an address to each of the given groups, firing one `groupAdded`
event for every key that springs into existence (first member). -/
def addToGroups : Index → String → List String → Index × List REvent
  | idx, _, [] => (idx, [])
  | idx, j, g :: gs =>
    let ev := if indexHasKey idx g then [] else [REvent.groupAdded g]
    let r := addToGroups (addMember idx g j) j gs
    (r.1, ev ++ r.2)

/-- The record contents dictated by a wire item: all fields are taken from
the wire (groups as a set); identity (`iid`, `jid`) is supplied by the
caller — the existing record's identity on update, a fresh one on create. -/
def wireFields (base : Nat) (jid0 : String) (w : WireItem) : Item :=
  { iid := base, jid := jid0, subscription := w.subscription, ask := w.ask,
    approved := w.approved, name := w.name, groups := w.groups.dedup }

/-- The groups an update takes away from an existing record. -/
def lostOf (old : Item) (w : WireItem) : List String :=
  old.groups.filter (fun g => decide (g ∉ w.groups.dedup))

/-- The groups an update gives to an existing record. -/
def gainedOf (old : Item) (w : WireItem) : List String :=
  (w.groups.dedup).filter (fun g => decide (g ∉ old.groups))

/-- In-place update of the existing record `old` by a wire item: the
record is replaced field-wise (identity kept), the group index is
reconciled against the pre/post group sets, and the change events are
computed from the field diffs. -/
def updateExisting (st : RosterState) (w : WireItem) (old : Item) :
    RosterState × List REvent :=
  let newIt : Item := wireFields old.iid old.jid w
  let items1 := st.items.map (fun it => if it.jid = w.jid then newIt else it)
  let rem := removeFromGroups st.groupIndex w.jid (lostOf old w)
  let add := addToGroups rem.1 w.jid (gainedOf old w)
  let nameEv := if old.name = w.name then [] else [REvent.entryNameChanged w.jid]
  let subEv :=
    if old.subscription = w.subscription ∧ old.ask = w.ask ∧
        old.approved = w.approved then []
    else [REvent.entrySubscriptionStateChanged w.jid]
  ({ st with items := items1, groupIndex := add.1 },
    nameEv ++ subEv
      ++ (lostOf old w).map (fun g => REvent.entryRemovedFromGroup w.jid g)
      ++ rem.2
      ++ (gainedOf old w).map (fun g => REvent.entryAddedToGroup w.jid g)
      ++ add.2)

/-- Creation of a fresh record for a previously unknown address. -/
def createEntry (st : RosterState) (w : WireItem) : RosterState × List REvent :=
  let newIt : Item := wireFields st.nextIid w.jid w
  let add := addToGroups st.groupIndex w.jid newIt.groups
  ({ st with
      items := st.items ++ [newIt]
      groupIndex := add.1
      nextIid := st.nextIid + 1 },
    add.2 ++ [REvent.entryAdded w.jid])

/-- Modelled from the spec: per-item reconciliation for a non-removal line
item (spec §4.1): an existing record is updated in place (the whole record
is replaced field-wise, the instance `iid` is kept), a missing address
gets a fresh record; the group index is reconciled against the pre/post
group sets and the change events are computed from the field diffs. -/
def updateEntry (st : RosterState) (w : WireItem) : RosterState × List REvent :=
  match findItem st.items w.jid with
  | some old => updateExisting st w old
  | none => createEntry st w

/-- Modelled from the spec: per-item reconciliation for a removal (push
item with `subscription = "remove"`, or a snapshot dropping an address):
the record is destroyed, its prior groups are pruned from the index before
the `entryRemoved` event fires; removing an absent address is a no-op. -/
def removeEntry (st : RosterState) (j : String) : RosterState × List REvent :=
  match findItem st.items j with
  | none => (st, [])
  | some old =>
    let items1 := st.items.filter (fun it => decide (it.jid ≠ j))
    let rem := removeFromGroups st.groupIndex j old.groups
    ({ st with items := items1, groupIndex := rem.1 },
      rem.2 ++ [REvent.entryRemoved j])

/-- One line item's reconciliation step (update/create/remove rule). -/
def applyWireItem (st : RosterState) (w : WireItem) : RosterState × List REvent :=
  if w.subscription = "remove" then removeEntry st w.jid else updateEntry st w

/-- Fold a list of line items over the state, pairing every fired event
with the state its listeners observe (the state right after the item step
that fired it). -/
def applyItems : RosterState → List WireItem → RosterState × List Emit
  | st, [] => (st, [])
  | st, w :: ws =>
    let s := applyWireItem st w
    let r := applyItems s.1 ws
    (r.1, s.2.map (fun e => (s.1, e)) ++ r.2)

/-- Modelled from the spec: merging a roster push — the per-item
update/create/remove rule over the push's items, always replacing the
stored version token (spec §4.1, push case). -/
def applyPush (st : RosterState) (q : Query) : RosterState × List Emit :=
  let r := applyItems st q.items
  ({ r.1 with ver := q.ver }, r.2)

/-- Modelled from the spec: merging the initial roster snapshot (spec
§4.1, snapshot case, together with the concurrency race rule).  `touched`
is the set of addresses for which a concurrently delivered push already
completed its merge while the fetch was in flight: the still-current
record for such an address is authoritative, so the snapshot merge
neither overwrites nor removes it.  Every stored address absent from the
snapshot (and untouched) is removed, every snapshot item (untouched) is
merged by the per-item rule, the version token is replaced, and the
`initialRosterReceived` event fires last, on the fully merged state. -/
def mergeSnapshot (touched : List String) (st : RosterState) (q : Query) :
    RosterState × List Emit :=
  let keep := q.items.map (fun w => w.jid) ++ touched
  let toRemove := (st.items.map (fun it => it.jid)).filter
      (fun j => decide (j ∉ keep))
  let ws := toRemove.map (fun j => ({ jid := j, subscription := "remove" } : WireItem))
      ++ q.items.filter (fun w => decide (w.jid ∉ touched))
  let r := applyItems st ws
  let st2 := { r.1 with ver := q.ver }
  (st2, r.2 ++ [(st2, REvent.initialRosterReceived)])

/-- One per-item JSON record of the persistence schema (spec §6): every
field is optional; an absent field means "reset to the default". -/
structure ItemJson where
  subscription : Option String := none
  ask : Option String := none
  approved : Option Bool := none
  name : Option String := none
  groups : Option (List String) := none
deriving Repr, DecidableEq

/-- The persistence schema for a whole roster (spec §6). -/
structure RosterJson where
  items : List (String × ItemJson) := []
  ver : Option String := none
deriving Repr, DecidableEq

/-- Modelled from the spec: `Item.update_from_json` replaces the whole
per-item record: each absent field is reset to its default (subscription
"none", no ask, not approved, no name, no groups); duplicate group names
collapse into a set.  Address and instance identity are untouched. -/
def Item.update_from_json (it : Item) (d : ItemJson) : Item :=
  { it with
    subscription := d.subscription.getD "none",
    ask := d.ask,
    approved := d.approved.getD false,
    name := d.name,
    groups := (d.groups.getD []).dedup }

/-- Modelled from the spec: `Item.export_as_json` — subscription always
present, ask and name present when set, approved present only when true,
groups sorted and omitted when empty (spec §6). -/
def Item.export_as_json (it : Item) : ItemJson :=
  { subscription := some it.subscription,
    ask := it.ask,
    approved := if it.approved then some true else none,
    name := it.name,
    groups :=
      if it.groups = [] then none
      else some (it.groups.insertionSort (fun a b => a ≤ b)) }

/-- Modelled from the spec: deterministic export of the whole store plus
version token (spec §4.1, persistence bridging). -/
def export_as_json (st : RosterState) : RosterJson :=
  { items := st.items.map (fun it => (it.jid, it.export_as_json)),
    ver := st.ver }

/-- Build the fresh records of an import; `base` seeds the instance ids. -/
def mkImportItems : Nat → List (String × ItemJson) → List Item
  | _, [] => []
  | base, (j, dj) :: rest =>
    Item.update_from_json
        { iid := base, jid := j, subscription := "none", ask := none,
          approved := false, name := none, groups := [] } dj
      :: mkImportItems (base + 1) rest

/-- Recompute the group index of a list of items from scratch. -/
def buildIndex (items : List Item) : Index :=
  ((items.map Item.groups).flatten.dedup).map
    (fun g => (g, (items.filter (fun it => decide (g ∈ it.groups))).map Item.jid))

/-- Modelled from the spec: the import path replaces the entire local
store and version without emitting any events (spec §4.1, persistence
bridging: "bulk load path, distinct from the event-emitting merge
path"); the group index is rebuilt for the imported items. -/
def import_from_json (st : RosterState) (d : RosterJson) : RosterState × List Emit :=
  let items := mkImportItems st.nextIid d.items
  ({ items := items, groupIndex := buildIndex items, ver := d.ver,
     nextIid := st.nextIid + d.items.length }, [])

/-- The bare form of an address: everything before the resource slash. -/
def bareJid (s : String) : String :=
  String.mk (s.data.takeWhile (fun c => decide (c ≠ '/')))

/-- Stanza-level error conditions surfaced to callers (spec §7). -/
inductive ErrorCondition where
  | forbidden
  | badRequest
  | serviceUnavailable
deriving Repr, DecidableEq

/-- A roster push IQ: optional from-address plus the query payload. -/
structure PushIQ where
  origin : Option String := none
  payload : Query := {}
deriving Repr, DecidableEq

/-- Modelled from the spec: the roster push handler (spec §7): a push
whose from-address is present and is not the bare form of the local
address is rejected with a FORBIDDEN authorization error and must not
mutate store state; a push with no from-address or with the bare local
address is accepted and merged. -/
def handle_roster_push (localJid : String) (st : RosterState) (iq : PushIQ) :
    RosterState × Option ErrorCondition × List Emit :=
  let allowed :=
    match iq.origin with
    | none => true
    | some f => decide (f = bareJid localJid)
  if allowed then
    let r := applyPush st iq.payload
    (r.1, none, r.2)
  else
    (st, some ErrorCondition.forbidden, [])

/-- Is some stored item a member of group `g`? -/
def refd (items : List Item) (g : String) : Bool :=
  items.any (fun it => decide (g ∈ it.groups))

/-- Count occurrences of an event in an emission trace. -/
def countEv (es : List Emit) (e : REvent) : Nat :=
  (es.map Prod.snd).count e

theorem findItem_nil (j : String) : findItem [] j = none := rfl

theorem findItem_cons (it : Item) (l : List Item) (j : String) :
    findItem (it :: l) j = if it.jid = j then some it else findItem l j := by
  by_cases h : it.jid = j
  · simp [findItem, List.find?_cons_of_pos, h]
  · simp only [findItem] at *
    rw [List.find?_cons_of_neg]
    · simp [h]
    · simp [h]

theorem findItem_append (l1 l2 : List Item) (j : String) :
    findItem (l1 ++ l2) j =
      match findItem l1 j with
      | some it => some it
      | none => findItem l2 j := by
  induction l1 with
  | nil => simp [findItem_nil]
  | cons a l ih =>
    rw [List.cons_append, findItem_cons, findItem_cons]
    by_cases h : a.jid = j <;> simp [h, ih]

theorem findItem_map_replace_self (items : List Item) (newIt : Item) (jw : String)
    (hj : newIt.jid = jw) :
    findItem (items.map (fun it => if it.jid = jw then newIt else it)) jw =
      (findItem items jw).map (fun _ => newIt) := by
  induction items with
  | nil => simp [findItem_nil]
  | cons a l ih =>
    rw [List.map_cons, findItem_cons, findItem_cons]
    by_cases ha : a.jid = jw
    · rw [if_pos ha, if_pos hj, if_pos ha]
      rfl
    · rw [if_neg ha, if_neg ha, if_neg ha]
      exact ih

theorem findItem_map_replace_other (items : List Item) (newIt : Item)
    (jw j : String) (hj : newIt.jid = jw) (hne : j ≠ jw) :
    findItem (items.map (fun it => if it.jid = jw then newIt else it)) j =
      findItem items j := by
  induction items with
  | nil => simp [findItem_nil]
  | cons a l ih =>
    rw [List.map_cons, findItem_cons, findItem_cons]
    by_cases ha : a.jid = jw
    · rw [if_pos ha, if_neg (by rw [hj]; exact fun hc => hne hc.symm),
        if_neg (by rw [ha]; exact fun hc => hne hc.symm)]
      exact ih
    · rw [if_neg ha]
      by_cases haj : a.jid = j
      · rw [if_pos haj, if_pos haj]
      · rw [if_neg haj, if_neg haj]
        exact ih

theorem findItem_filter_out_self (items : List Item) (jr : String) :
    findItem (items.filter (fun it => decide (it.jid ≠ jr))) jr = none := by
  induction items with
  | nil => simp [findItem_nil]
  | cons a l ih =>
    by_cases ha : a.jid = jr
    · rw [List.filter_cons_of_neg (by simp [ha])]
      exact ih
    · rw [List.filter_cons_of_pos (by simp [ha]), findItem_cons, if_neg ha]
      exact ih

theorem findItem_filter_out_other (items : List Item) (jr j : String)
    (hne : j ≠ jr) :
    findItem (items.filter (fun it => decide (it.jid ≠ jr))) j =
      findItem items j := by
  induction items with
  | nil => simp
  | cons a l ih =>
    by_cases ha : a.jid = jr
    · rw [List.filter_cons_of_neg (by simp [ha]), findItem_cons,
        if_neg (by rw [ha]; exact fun hc => hne hc.symm)]
      exact ih
    · rw [List.filter_cons_of_pos (by simp [ha]), findItem_cons, findItem_cons]
      by_cases haj : a.jid = j
      · rw [if_pos haj, if_pos haj]
      · rw [if_neg haj, if_neg haj]
        exact ih

theorem findItem_some_jid {items : List Item} {j : String} {it : Item}
    (h : findItem items j = some it) : it.jid = j := by
  have := List.find?_some h
  simpa using this

theorem findItem_some_mem {items : List Item} {j : String} {it : Item}
    (h : findItem items j = some it) : it ∈ items :=
  List.mem_of_find?_eq_some h

/-- Reconciling a line item never disturbs the record of another address. -/
theorem findItem_applyWireItem_other (st : RosterState) (w : WireItem)
    (j : String) (hj : j ≠ w.jid) :
    findItem (applyWireItem st w).1.items j = findItem st.items j := by
  unfold applyWireItem
  by_cases hrem : w.subscription = "remove"
  · simp only [if_pos hrem]
    unfold removeEntry
    cases hf : findItem st.items w.jid with
    | none => rfl
    | some old =>
      exact findItem_filter_out_other st.items w.jid j hj
  · simp only [if_neg hrem]
    unfold updateEntry
    cases hf : findItem st.items w.jid with
    | some old =>
      unfold updateExisting
      simp only []
      apply findItem_map_replace_other
      · simp only [wireFields]
        exact findItem_some_jid hf
      · exact hj
    | none =>
      unfold createEntry
      simp only []
      rw [findItem_append]
      cases hg : findItem st.items j with
      | some it => rfl
      | none =>
        rw [findItem_cons, findItem_nil, if_neg (fun hc => hj hc.symm)]

/-- After a removal step the address is gone from the store. -/
theorem findItem_applyWireItem_remove (st : RosterState) (w : WireItem)
    (hrem : w.subscription = "remove") :
    findItem (applyWireItem st w).1.items w.jid = none := by
  unfold applyWireItem
  simp only [if_pos hrem]
  unfold removeEntry
  cases hf : findItem st.items w.jid with
  | none => exact hf
  | some old =>
    exact findItem_filter_out_self st.items w.jid

/-- After a non-removal step the address holds exactly the pushed fields;
if the address already existed, the instance id is preserved (in-place
mutation). -/
theorem findItem_applyWireItem_update (st : RosterState) (w : WireItem)
    (hrem : w.subscription ≠ "remove") :
    ∃ u, findItem (applyWireItem st w).1.items w.jid = some u ∧
      u.jid = w.jid ∧ u.subscription = w.subscription ∧ u.ask = w.ask ∧
      u.approved = w.approved ∧ u.name = w.name ∧ u.groups = w.groups.dedup ∧
      (∀ old, findItem st.items w.jid = some old → u.iid = old.iid) := by
  unfold applyWireItem
  simp only [if_neg hrem]
  unfold updateEntry
  cases hf : findItem st.items w.jid with
  | some old =>
    have hjid : old.jid = w.jid := findItem_some_jid hf
    refine ⟨wireFields old.iid old.jid w, ?_, hjid, rfl, rfl, rfl, rfl, rfl, ?_⟩
    · unfold updateExisting
      simp only []
      rw [findItem_map_replace_self st.items (wireFields old.iid old.jid w)
        w.jid (by simpa [wireFields] using hjid), hf]
      rfl
    · intro old2 h2
      cases h2
      rfl
  | none =>
    refine ⟨wireFields st.nextIid w.jid w, ?_, rfl, rfl, rfl, rfl, rfl, rfl, ?_⟩
    · unfold createEntry
      simp only []
      rw [findItem_append, hf]
      simp [findItem_cons, wireFields]
    · intro old2 h2
      cases h2

/-- A fold of line items leaves the records of unmentioned addresses
untouched. -/
theorem findItem_applyItems_notMentioned (st : RosterState) (ws : List WireItem)
    (j : String) (hj : j ∉ ws.map WireItem.jid) :
    findItem (applyItems st ws).1.items j = findItem st.items j := by
  induction ws generalizing st with
  | nil => rfl
  | cons w rest ih =>
    simp only [List.map_cons, List.mem_cons] at hj
    push_neg at hj
    unfold applyItems
    simp only []
    rw [ih _ hj.2]
    exact findItem_applyWireItem_other st w j hj.1

theorem applyItems_fst_cons (st : RosterState) (w : WireItem)
    (ws : List WireItem) :
    (applyItems st (w :: ws)).1 = (applyItems (applyWireItem st w).1 ws).1 := rfl

theorem applyPush_fst (st : RosterState) (q : Query) :
    (applyPush st q).1 = { (applyItems st q.items).1 with ver := q.ver } := rfl

/-- The line-item work list of a snapshot merge: synthesized removals for
the stored addresses that are absent from the snapshot and untouched by an
already-applied concurrent push, then the untouched snapshot items. -/
def snapshotWorkList (touched : List String) (st : RosterState) (q : Query) :
    List WireItem :=
  ((st.items.map (fun it => it.jid)).filter
      (fun j => decide (j ∉ q.items.map (fun w => w.jid) ++ touched))).map
    (fun j => ({ jid := j, subscription := "remove" } : WireItem))
  ++ q.items.filter (fun w => decide (w.jid ∉ touched))

theorem mergeSnapshot_fst (touched : List String) (st : RosterState)
    (q : Query) :
    (mergeSnapshot touched st q).1 =
      { (applyItems st (snapshotWorkList touched st q)).1 with ver := q.ver } := rfl

/- The concrete race scenario of the spec (§8): a push applied while the
initial fetch is in flight, and a snapshot that does not yet know about
that push. -/

def raceUser1 : String := "user@foo.example"

def raceUser2 : String := "user@bar.example"

def racePush : Query :=
  { items := [{ jid := raceUser1, name := some "some foo user" },
              { jid := raceUser2, subscription := "remove" }],
    ver := some "foobar" }

def raceSnapshot : Query :=
  { items := [{ jid := raceUser2, subscription := "both",
                name := some "some bar user" }],
    ver := some "foobar" }

def raceW1 : WireItem := { jid := raceUser1, name := some "some foo user" }

def raceW2 : WireItem := { jid := raceUser2, subscription := "remove" }

/-- C1: a roster push whose merge completed while the initial snapshot
fetch was still in flight is authoritative: after the snapshot merge
(which only knows user2) the store still holds user1 with the pushed name
and does not hold user2, whatever the starting state was — the
earlier-applied push is never overwritten by the later-arriving snapshot
merge. -/
theorem push_wins_over_snapshot_merge (st : RosterState) :
    (∃ u, findItem (mergeSnapshot [raceUser1, raceUser2]
          (applyPush st racePush).1 raceSnapshot).1.items raceUser1 = some u ∧
        u.name = some "some foo user") ∧
    findItem (mergeSnapshot [raceUser1, raceUser2]
        (applyPush st racePush).1 raceSnapshot).1.items raceUser2 = none := by
  obtain ⟨u, hu, _, _, _, _, huname, _, _⟩ :=
    findItem_applyWireItem_update st raceW1 (by decide)
  have hitems : (applyPush st racePush).1.items =
      (applyWireItem (applyWireItem st raceW1).1 raceW2).1.items := rfl
  have hu1 : findItem (applyPush st racePush).1.items raceUser1 = some u := by
    rw [hitems,
      findItem_applyWireItem_other (applyWireItem st raceW1).1 raceW2
        raceUser1 (by decide)]
    exact hu
  have hu2 : findItem (applyPush st racePush).1.items raceUser2 = none := by
    rw [hitems]
    exact findItem_applyWireItem_remove (applyWireItem st raceW1).1 raceW2 rfl
  have hwsmap :
      (snapshotWorkList [raceUser1, raceUser2] (applyPush st racePush).1
          raceSnapshot).map WireItem.jid =
        ((applyPush st racePush).1.items.map (fun it => it.jid)).filter
          (fun j => decide (j ∉ raceSnapshot.items.map (fun w => w.jid)
            ++ [raceUser1, raceUser2])) := by
    unfold snapshotWorkList
    rw [show raceSnapshot.items.filter
        (fun w => decide (w.jid ∉ [raceUser1, raceUser2])) = [] from rfl]
    simp only [List.append_nil, List.map_map]
    exact List.map_id _
  have hnm : ∀ j0, j0 ∈ ([raceUser1, raceUser2] : List String) →
      j0 ∉ (snapshotWorkList [raceUser1, raceUser2] (applyPush st racePush).1
        raceSnapshot).map WireItem.jid := by
    intro j0 hj0 hmem
    rw [hwsmap] at hmem
    have h2 := of_decide_eq_true (List.mem_filter.mp hmem).2
    exact h2 (List.mem_append_right _ hj0)
  have hpre : ∀ j0, j0 ∈ ([raceUser1, raceUser2] : List String) →
      findItem (mergeSnapshot [raceUser1, raceUser2]
          (applyPush st racePush).1 raceSnapshot).1.items j0 =
        findItem (applyPush st racePush).1.items j0 := by
    intro j0 hj0
    rw [mergeSnapshot_fst]
    exact findItem_applyItems_notMentioned _ _ j0 (hnm j0 hj0)
  constructor
  · refine ⟨u, ?_, huname⟩
    rw [hpre raceUser1 (by simp)]
    exact hu1
  · rw [hpre raceUser2 (by simp)]
    exact hu2

/-- C10: `Item.update_from_json` replaces the whole record rather than
merging — every field absent from the mapping is reset to its default
(subscription "none", not approved, no ask, no name, no groups), an empty
mapping resets the item entirely, duplicate group names collapse into a
set, and address and instance identity are untouched. -/
theorem update_from_json_replaces_record (it : Item) (d : ItemJson) :
    (it.update_from_json d).jid = it.jid ∧
    (it.update_from_json d).iid = it.iid ∧
    (it.update_from_json d).subscription = d.subscription.getD "none" ∧
    (it.update_from_json d).ask = d.ask ∧
    (it.update_from_json d).approved = d.approved.getD false ∧
    (it.update_from_json d).name = d.name ∧
    (∀ g, g ∈ (it.update_from_json d).groups ↔ g ∈ d.groups.getD []) ∧
    (it.update_from_json d).groups.Nodup ∧
    it.update_from_json {} =
      { it with subscription := "none", ask := none, approved := false,
                name := none, groups := [] } := by
  refine ⟨rfl, rfl, rfl, rfl, rfl, rfl, ?_, ?_, rfl⟩
  · intro g
    simp [Item.update_from_json]
  · simp [Item.update_from_json]
    exact List.nodup_dedup _

/-- C3: a roster push whose from-address is present and differs from the
bare local address is rejected with a FORBIDDEN authorization error,
leaving store, group index and version token untouched and firing no
events; a push with no from-address or with the bare local address as
from-address is accepted (no error). -/
theorem roster_push_authorization (localJid : String) (st : RosterState)
    (iq : PushIQ) :
    (∀ f, iq.origin = some f → f ≠ bareJid localJid →
        handle_roster_push localJid st iq =
          (st, some ErrorCondition.forbidden, [])) ∧
    ((iq.origin = none ∨ iq.origin = some (bareJid localJid)) →
        (handle_roster_push localJid st iq).2.1 = none) := by
  constructor
  · intro f hf hne
    unfold handle_roster_push
    rw [hf]
    simp [hne]
  · intro h
    unfold handle_roster_push
    rcases h with h | h <;> rw [h] <;> simp

theorem applyItems_snd_cons (st : RosterState) (w : WireItem)
    (ws : List WireItem) :
    (applyItems st (w :: ws)).2 =
      (applyWireItem st w).2.map (fun e => ((applyWireItem st w).1, e))
        ++ (applyItems (applyWireItem st w).1 ws).2 := rfl

theorem applyItems_append (st : RosterState) (l1 l2 : List WireItem) :
    applyItems st (l1 ++ l2) =
      ((applyItems (applyItems st l1).1 l2).1,
        (applyItems st l1).2 ++ (applyItems (applyItems st l1).1 l2).2) := by
  induction l1 generalizing st with
  | nil => simp [applyItems]
  | cons w ws ih =>
    rw [List.cons_append]
    rw [show applyItems st (w :: (ws ++ l2)) =
        ((applyItems (applyWireItem st w).1 (ws ++ l2)).1,
          (applyWireItem st w).2.map (fun e => ((applyWireItem st w).1, e))
            ++ (applyItems (applyWireItem st w).1 (ws ++ l2)).2) from rfl]
    rw [ih, applyItems_fst_cons, applyItems_snd_cons]
    simp [List.append_assoc]

/-- The record an in-store address carries right after the fold step that
mentions it: all fields from the wire item, the instance id of the record
that was already there. -/
theorem findItem_applyItems_found (st : RosterState) (l1 l2 : List WireItem)
    (w : WireItem) (old : Item)
    (h1 : w.jid ∉ l1.map WireItem.jid) (h2 : w.jid ∉ l2.map WireItem.jid)
    (hrem : w.subscription ≠ "remove")
    (hold : findItem st.items w.jid = some old) :
    ∃ u, findItem (applyItems st (l1 ++ w :: l2)).1.items w.jid = some u ∧
      u.iid = old.iid ∧ u.jid = w.jid ∧ u.subscription = w.subscription ∧
      u.ask = w.ask ∧ u.approved = w.approved ∧ u.name = w.name ∧
      u.groups = w.groups.dedup := by
  rw [applyItems_append]
  simp only []
  have hmid : findItem (applyItems st l1).1.items w.jid = some old := by
    rw [findItem_applyItems_notMentioned st l1 w.jid h1]
    exact hold
  obtain ⟨u, hu, hjid, hsub, hask, happ, hname, hgr, hiid⟩ :=
    findItem_applyWireItem_update (applyItems st l1).1 w hrem
  refine ⟨u, ?_, hiid old hmid, hjid, hsub, hask, happ, hname, hgr⟩
  rw [show (applyItems (applyItems st l1).1 (w :: l2)).1 =
      (applyItems (applyWireItem (applyItems st l1).1 w).1 l2).1 from rfl]
  rw [findItem_applyItems_notMentioned _ l2 w.jid h2]
  exact hu

/-- Split a work list around a mentioned wire item whose address appears
nowhere else. -/
theorem split_at_wireItem {ws : List WireItem} {w : WireItem}
    (hnd : (ws.map WireItem.jid).Nodup) (hw : w ∈ ws) :
    ∃ l1 l2, ws = l1 ++ w :: l2 ∧ w.jid ∉ l1.map WireItem.jid ∧
      w.jid ∉ l2.map WireItem.jid := by
  obtain ⟨l1, l2, rfl⟩ := List.append_of_mem hw
  refine ⟨l1, l2, rfl, ?_, ?_⟩
  · intro hmem
    rw [List.map_append, List.map_cons] at hnd
    have hmid := (List.nodup_cons.mp (List.nodup_middle.mp hnd)).1
    exact hmid (List.mem_append_left _ hmem)
  · intro hmem
    rw [List.map_append, List.map_cons] at hnd
    have hmid := (List.nodup_cons.mp (List.nodup_middle.mp hnd)).1
    exact hmid (List.mem_append_right _ hmem)

/-- C8: an address already present in the store is mutated in place by
every push or snapshot merge referencing it: afterwards the store maps it
to the same object instance (same `iid`), and that instance carries the
pushed field values. -/
theorem merge_mutates_in_place (st : RosterState) (q : Query) (w : WireItem)
    (old : Item) (hnd : (q.items.map WireItem.jid).Nodup) (hw : w ∈ q.items)
    (hrem : w.subscription ≠ "remove")
    (hold : findItem st.items w.jid = some old) :
    (∃ u, findItem (applyPush st q).1.items w.jid = some u ∧
        u.iid = old.iid ∧ u.subscription = w.subscription ∧ u.ask = w.ask ∧
        u.approved = w.approved ∧ u.name = w.name ∧
        u.groups = w.groups.dedup) ∧
    ∀ touched : List String, w.jid ∉ touched →
      ∃ u, findItem (mergeSnapshot touched st q).1.items w.jid = some u ∧
        u.iid = old.iid ∧ u.subscription = w.subscription ∧ u.ask = w.ask ∧
        u.approved = w.approved ∧ u.name = w.name ∧
        u.groups = w.groups.dedup := by
  constructor
  · obtain ⟨l1, l2, hsplit, hl1, hl2⟩ := split_at_wireItem hnd hw
    rw [applyPush_fst]
    obtain ⟨u, hu, hiid, _, hsub, hask, happ, hname, hgr⟩ :=
      findItem_applyItems_found st l1 l2 w old hl1 hl2 hrem hold
    rw [show q.items = l1 ++ w :: l2 from hsplit]
    exact ⟨u, hu, hiid, hsub, hask, happ, hname, hgr⟩
  · intro touched hwt
    have hwF : w ∈ q.items.filter (fun w2 => decide (w2.jid ∉ touched)) :=
      List.mem_filter.mpr ⟨hw, decide_eq_true hwt⟩
    have hndF : ((q.items.filter (fun w2 => decide (w2.jid ∉ touched))).map
        WireItem.jid).Nodup :=
      hnd.sublist (List.Sublist.map WireItem.jid (List.filter_sublist _))
    obtain ⟨l1, l2, hsplit, hl1, hl2⟩ := split_at_wireItem hndF hwF
    rw [mergeSnapshot_fst]
    have hws : snapshotWorkList touched st q =
        (((st.items.map (fun it => it.jid)).filter
            (fun j => decide (j ∉ q.items.map (fun w2 => w2.jid) ++ touched))).map
          (fun j => ({ jid := j, subscription := "remove" } : WireItem)) ++ l1)
        ++ w :: l2 := by
      unfold snapshotWorkList
      rw [hsplit, List.append_assoc]
    have hRnot : w.jid ∉
        ((((st.items.map (fun it => it.jid)).filter
            (fun j => decide (j ∉ q.items.map (fun w2 => w2.jid) ++ touched))).map
          (fun j => ({ jid := j, subscription := "remove" } : WireItem)))
            ++ l1).map WireItem.jid := by
      rw [List.map_append]
      intro hmem
      rcases List.mem_append.mp hmem with hmem | hmem
      · rw [List.map_map] at hmem
        rw [show (WireItem.jid ∘ fun j =>
            ({ jid := j, subscription := "remove" } : WireItem)) =
              fun j => j from rfl] at hmem
        simp only [List.map_id'] at hmem
        have := of_decide_eq_true (List.mem_filter.mp hmem).2
        exact this (List.mem_append_left _
          (List.mem_map.mpr ⟨w, hw, rfl⟩))
      · exact hl1 hmem
    obtain ⟨u, hu, hiid, _, hsub, hask, happ, hname, hgr⟩ :=
      findItem_applyItems_found st _ l2 w old hRnot hl2 hrem hold
    rw [hws]
    exact ⟨u, hu, hiid, hsub, hask, happ, hname, hgr⟩

/-- Witness for C8: a concrete one-item store updated by a push and by a
snapshot merge; the record keeps instance id 7 and carries the pushed
fields. -/
theorem merge_mutates_in_place_witness :
    (∃ u, findItem (applyPush
        { items := [{ iid := 7, jid := "user@foo.example" }] }
        { items := [{ jid := "user@foo.example", subscription := "both",
                      name := some "x" }],
          ver := some "v" }).1.items "user@foo.example" = some u ∧
      u.iid = 7 ∧ u.subscription = "both" ∧ u.ask = none ∧
      u.approved = false ∧ u.name = some "x" ∧ u.groups = []) ∧
    (∃ u, findItem (mergeSnapshot ["other@x.example"]
        { items := [{ iid := 7, jid := "user@foo.example" }] }
        { items := [{ jid := "user@foo.example", subscription := "both",
                      name := some "x" }],
          ver := some "v" }).1.items "user@foo.example" = some u ∧
      u.iid = 7 ∧ u.subscription = "both" ∧ u.ask = none ∧
      u.approved = false ∧ u.name = some "x" ∧ u.groups = []) := by
  constructor
  · exact (merge_mutates_in_place
      { items := [{ iid := 7, jid := "user@foo.example" }] }
      { items := [{ jid := "user@foo.example", subscription := "both",
                    name := some "x" }],
        ver := some "v" }
      { jid := "user@foo.example", subscription := "both", name := some "x" }
      { iid := 7, jid := "user@foo.example" }
      (by decide) (by decide) (by decide) rfl).1
  · exact (merge_mutates_in_place
      { items := [{ iid := 7, jid := "user@foo.example" }] }
      { items := [{ jid := "user@foo.example", subscription := "both",
                    name := some "x" }],
        ver := some "v" }
      { jid := "user@foo.example", subscription := "both", name := some "x" }
      { iid := 7, jid := "user@foo.example" }
      (by decide) (by decide) (by decide) rfl).2
      ["other@x.example"] (by decide)

/-- The store already carries exactly what a wire item dictates: a removal
item finds nothing to remove, a non-removal item finds a record whose
fields coincide with the wire values. -/
def SatP (st : RosterState) (w : WireItem) : Prop :=
  if w.subscription = "remove" then findItem st.items w.jid = none
  else ∃ old, findItem st.items w.jid = some old ∧
    old.subscription = w.subscription ∧ old.ask = w.ask ∧
    old.approved = w.approved ∧ old.name = w.name ∧
    old.groups = w.groups.dedup

/-- All stored addresses are distinct. -/
def WfJids (st : RosterState) : Prop := (st.items.map Item.jid).Nodup

theorem findItem_eq_of_mem_nodup {items : List Item}
    (hnd : (items.map Item.jid).Nodup) {it : Item} (hit : it ∈ items) :
    findItem items it.jid = some it := by
  induction items with
  | nil => cases hit
  | cons a l ih =>
    rw [List.map_cons, List.nodup_cons] at hnd
    rcases List.mem_cons.mp hit with rfl | hit2
    · rw [findItem_cons, if_pos rfl]
    · have hne : a.jid ≠ it.jid := by
        intro hc
        apply hnd.1
        rw [hc]
        exact List.mem_map.mpr ⟨it, hit2, rfl⟩
      rw [findItem_cons, if_neg hne]
      exact ih hnd.2 hit2

theorem filter_not_mem_self (l : List String) :
    l.filter (fun g => decide (g ∉ l)) = [] := by
  rw [List.filter_eq_nil_iff]
  intro a ha
  simp [ha]

/-- A step on a saturated state is a perfect no-op: same state, no
events. -/
theorem applyWireItem_of_SatP (st : RosterState) (w : WireItem)
    (hwf : WfJids st) (hs : SatP st w) : applyWireItem st w = (st, []) := by
  unfold applyWireItem
  by_cases hrem : w.subscription = "remove"
  · rw [if_pos hrem]
    unfold SatP at hs
    rw [if_pos hrem] at hs
    unfold removeEntry
    rw [hs]
  · rw [if_neg hrem]
    unfold SatP at hs
    rw [if_neg hrem] at hs
    obtain ⟨old, hold, hsub, hask, happ, hname, hgr⟩ := hs
    unfold updateEntry
    rw [hold]
    unfold updateExisting lostOf gainedOf
    simp only []
    have hrec : wireFields old.iid old.jid w = old := by
      rw [show wireFields old.iid old.jid w =
          { iid := old.iid, jid := old.jid, subscription := w.subscription,
            ask := w.ask, approved := w.approved, name := w.name,
            groups := w.groups.dedup } from rfl]
      rw [← hsub, ← hask, ← happ, ← hname, ← hgr]
    rw [hrec]
    have hmap : st.items.map (fun it => if it.jid = w.jid then old else it) =
        st.items := by
      have hpt : ∀ it ∈ st.items,
          (if it.jid = w.jid then old else it) = id it := by
        intro it hit
        by_cases hj : it.jid = w.jid
        · have h1 : findItem st.items it.jid = some it :=
            findItem_eq_of_mem_nodup hwf hit
          rw [hj, hold] at h1
          cases h1
          rw [if_pos hj]
          rfl
        · rw [if_neg hj]
          rfl
      rw [List.map_congr_left hpt, List.map_id]
    rw [hmap]
    rw [← hgr]
    rw [show old.groups.filter (fun g => decide (g ∉ old.groups)) = []
      from filter_not_mem_self old.groups]
    rw [if_pos hname, if_pos ⟨hsub, hask, happ⟩]
    simp [removeFromGroups, addToGroups]

/-- Saturation only depends on the record stored at the item's address, so
steps on other addresses preserve it. -/
theorem SatP_of_findItem_eq {st st2 : RosterState} {w : WireItem}
    (h : findItem st2.items w.jid = findItem st.items w.jid)
    (hs : SatP st w) : SatP st2 w := by
  unfold SatP at hs ⊢
  by_cases hrem : w.subscription = "remove"
  · rw [if_pos hrem] at hs ⊢
    rw [h]
    exact hs
  · rw [if_neg hrem] at hs ⊢
    rw [h]
    exact hs

/-- After its own step, a wire item is saturated. -/
theorem SatP_applyWireItem_self (st : RosterState) (w : WireItem) :
    SatP (applyWireItem st w).1 w := by
  unfold SatP
  by_cases hrem : w.subscription = "remove"
  · rw [if_pos hrem]
    exact findItem_applyWireItem_remove st w hrem
  · rw [if_neg hrem]
    obtain ⟨u, hu, _, hsub, hask, happ, hname, hgr, _⟩ :=
      findItem_applyWireItem_update st w hrem
    exact ⟨u, hu, hsub, hask, happ, hname, hgr⟩

/-- Every step preserves distinctness of the stored addresses. -/
theorem WfJids_applyWireItem (st : RosterState) (w : WireItem)
    (hwf : WfJids st) : WfJids (applyWireItem st w).1 := by
  unfold WfJids at hwf ⊢
  unfold applyWireItem
  by_cases hrem : w.subscription = "remove"
  · rw [if_pos hrem]
    unfold removeEntry
    cases hf : findItem st.items w.jid with
    | none => exact hwf
    | some old =>
      exact hwf.sublist (List.Sublist.map _ (List.filter_sublist _))
  · rw [if_neg hrem]
    unfold updateEntry
    cases hf : findItem st.items w.jid with
    | some old =>
      unfold updateExisting
      simp only []
      have hjids : (st.items.map
          (fun it => if it.jid = w.jid then wireFields old.iid old.jid w
            else it)).map Item.jid = st.items.map Item.jid := by
        rw [List.map_map]
        apply List.map_congr_left
        intro it hit
        by_cases hj : it.jid = w.jid
        · simp only [Function.comp, if_pos hj, wireFields]
          rw [findItem_some_jid hf, hj]
        · simp only [Function.comp, if_neg hj]
      rw [hjids]
      exact hwf
    | none =>
      unfold createEntry
      simp only []
      rw [List.map_append]
      rw [List.nodup_append]
      refine ⟨hwf, by simp [wireFields], ?_⟩
      intro a ha
      simp only [wireFields, List.map_cons, List.map_nil, List.mem_singleton]
      intro hc
      rw [hc] at ha
      obtain ⟨it, hit, hjid⟩ := List.mem_map.mp ha
      have : findItem st.items it.jid = some it :=
        findItem_eq_of_mem_nodup hwf hit
      rw [hjid, hf] at this
      cases this

theorem WfJids_applyItems (st : RosterState) (ws : List WireItem)
    (hwf : WfJids st) : WfJids (applyItems st ws).1 := by
  induction ws generalizing st with
  | nil => exact hwf
  | cons w rest ih =>
    rw [applyItems_fst_cons]
    exact ih _ (WfJids_applyWireItem st w hwf)

/-- Saturation survives a fold over items with other addresses. -/
theorem SatP_applyItems_preserved (st : RosterState) (ws : List WireItem)
    (w : WireItem) (h : w.jid ∉ ws.map WireItem.jid) (hs : SatP st w) :
    SatP (applyItems st ws).1 w :=
  SatP_of_findItem_eq (findItem_applyItems_notMentioned st ws w.jid h) hs

/-- After one pass over a duplicate-free work list, every item of the list
is saturated. -/
theorem applyItems_saturates (st : RosterState) (ws : List WireItem)
    (hnd : (ws.map WireItem.jid).Nodup) :
    ∀ w ∈ ws, SatP (applyItems st ws).1 w := by
  induction ws generalizing st with
  | nil => intro w hw; cases hw
  | cons w0 rest ih =>
    rw [List.map_cons, List.nodup_cons] at hnd
    intro w hw
    rcases List.mem_cons.mp hw with rfl | hw2
    · rw [applyItems_fst_cons]
      exact SatP_applyItems_preserved _ rest w hnd.1
        (SatP_applyWireItem_self st w)
    · rw [applyItems_fst_cons]
      exact ih _ hnd.2 w hw2

/-- A fold over a fully saturated work list is a perfect no-op. -/
theorem applyItems_of_SatP (st : RosterState) (ws : List WireItem)
    (hwf : WfJids st) (hs : ∀ w ∈ ws, SatP st w) :
    applyItems st ws = (st, []) := by
  induction ws with
  | nil => rfl
  | cons w rest ih =>
    have hstep : applyWireItem st w = (st, []) :=
      applyWireItem_of_SatP st w hwf (hs w (List.mem_cons_self w rest))
    unfold applyItems
    simp only []
    rw [hstep]
    simp only []
    rw [ih (fun w2 hw2 => hs w2 (List.mem_cons_of_mem w hw2))]
    simp

/-- The address an entry-level event is about (none for group events). -/
def entryEvJid : REvent → Option String
  | REvent.entryAdded j => some j
  | REvent.entryRemoved j => some j
  | REvent.entryNameChanged j => some j
  | REvent.entrySubscriptionStateChanged j => some j
  | _ => none

theorem removeFromGroups_shape (idx : Index) (j : String) (gs : List String) :
    ∀ e ∈ (removeFromGroups idx j gs).2, ∃ g, e = REvent.groupRemoved g := by
  induction gs generalizing idx with
  | nil => intro e he; cases he
  | cons g rest ih =>
    intro e he
    unfold removeFromGroups at he
    simp only [] at he
    rcases List.mem_append.mp he with he | he
    · by_cases hc : (indexHasKey idx g
          && !(indexHasKey (removeMember idx g j) g)) = true
      · rw [if_pos hc] at he
        rw [List.mem_singleton.mp he]
        exact ⟨g, rfl⟩
      · rw [if_neg hc] at he
        cases he
    · exact ih _ e he

theorem addToGroups_shape (idx : Index) (j : String) (gs : List String) :
    ∀ e ∈ (addToGroups idx j gs).2, ∃ g, e = REvent.groupAdded g := by
  induction gs generalizing idx with
  | nil => intro e he; cases he
  | cons g rest ih =>
    intro e he
    unfold addToGroups at he
    simp only [] at he
    rcases List.mem_append.mp he with he | he
    · by_cases hc : indexHasKey idx g = true
      · rw [if_pos hc] at he
        cases he
      · rw [if_neg hc] at he
        rw [List.mem_singleton.mp he]
        exact ⟨g, rfl⟩
    · exact ih _ e he

/-- Every entry-level event fired by a step is about the step's own
address. -/
theorem applyWireItem_entryEv_jid (st : RosterState) (w : WireItem) :
    ∀ e ∈ (applyWireItem st w).2, ∀ j, entryEvJid e = some j → j = w.jid := by
  intro e he j hj
  unfold applyWireItem at he
  by_cases hrem : w.subscription = "remove"
  · rw [if_pos hrem] at he
    unfold removeEntry at he
    cases hf : findItem st.items w.jid with
    | none => rw [hf] at he; cases he
    | some old =>
      rw [hf] at he
      simp only [] at he
      rcases List.mem_append.mp he with he | he
      · obtain ⟨g, rfl⟩ := removeFromGroups_shape _ _ _ e he
        cases hj
      · rw [List.mem_singleton.mp he] at hj
        cases hj
        rfl
  · rw [if_neg hrem] at he
    unfold updateEntry at he
    cases hf : findItem st.items w.jid with
    | some old =>
      rw [hf] at he
      simp only [] at he
      rcases List.mem_append.mp he with he | he
      rotate_left
      · obtain ⟨g, rfl⟩ := addToGroups_shape _ _ _ e he
        cases hj
      rcases List.mem_append.mp he with he | he
      rotate_left
      · obtain ⟨g, _, rfl⟩ := List.mem_map.mp he
        cases hj
      rcases List.mem_append.mp he with he | he
      rotate_left
      · obtain ⟨g, rfl⟩ := removeFromGroups_shape _ _ _ e he
        cases hj
      rcases List.mem_append.mp he with he | he
      rotate_left
      · obtain ⟨g, _, rfl⟩ := List.mem_map.mp he
        cases hj
      rcases List.mem_append.mp he with he | he
      · by_cases hc : old.name = w.name
        · rw [if_pos hc] at he; cases he
        · rw [if_neg hc] at he
          rw [List.mem_singleton.mp he] at hj
          cases hj
          rfl
      · by_cases hc : old.subscription = w.subscription ∧ old.ask = w.ask ∧
            old.approved = w.approved
        · rw [if_pos hc] at he; cases he
        · rw [if_neg hc] at he
          rw [List.mem_singleton.mp he] at hj
          cases hj
          rfl
    | none =>
      rw [hf] at he
      simp only [] at he
      rcases List.mem_append.mp he with he | he
      · obtain ⟨g, rfl⟩ := addToGroups_shape _ _ _ e he
        cases hj
      · rw [List.mem_singleton.mp he] at hj
        cases hj
        rfl

theorem count_eq_zero_of_shape {l : List REvent} {e : REvent}
    (h : ∀ x ∈ l, x ≠ e) : l.count e = 0 :=
  List.count_eq_zero.mpr (fun hc => (h e hc) rfl)

/-- A step fires an entry-level event about an address other than its own
never. -/
theorem applyWireItem_entry_count_other (st : RosterState) (w : WireItem)
    (e : REvent) (j : String) (hje : entryEvJid e = some j)
    (hne : j ≠ w.jid) : (applyWireItem st w).2.count e = 0 := by
  apply count_eq_zero_of_shape
  intro x hx hc
  rw [hc] at hx
  exact hne (applyWireItem_entryEv_jid st w e hx j hje)

theorem count_entry_removeFromGroups (idx : Index) (j0 : String)
    (gs : List String) (e : REvent) (hj : entryEvJid e ≠ none) :
    (removeFromGroups idx j0 gs).2.count e = 0 := by
  apply count_eq_zero_of_shape
  intro x hx hc
  obtain ⟨g, rfl⟩ := removeFromGroups_shape idx j0 gs x hx
  rw [← hc] at hj
  exact hj rfl

theorem count_entry_addToGroups (idx : Index) (j0 : String)
    (gs : List String) (e : REvent) (hj : entryEvJid e ≠ none) :
    (addToGroups idx j0 gs).2.count e = 0 := by
  apply count_eq_zero_of_shape
  intro x hx hc
  obtain ⟨g, rfl⟩ := addToGroups_shape idx j0 gs x hx
  rw [← hc] at hj
  exact hj rfl

theorem count_entry_mapRemovedFromGroup (j0 : String) (gs : List String)
    (e : REvent) (hj : entryEvJid e ≠ none) :
    (gs.map (fun g => REvent.entryRemovedFromGroup j0 g)).count e = 0 := by
  apply count_eq_zero_of_shape
  intro x hx hc
  obtain ⟨g, _, rfl⟩ := List.mem_map.mp hx
  rw [← hc] at hj
  exact hj rfl

theorem count_entry_mapAddedToGroup (j0 : String) (gs : List String)
    (e : REvent) (hj : entryEvJid e ≠ none) :
    (gs.map (fun g => REvent.entryAddedToGroup j0 g)).count e = 0 := by
  apply count_eq_zero_of_shape
  intro x hx hc
  obtain ⟨g, _, rfl⟩ := List.mem_map.mp hx
  rw [← hc] at hj
  exact hj rfl

theorem count_ite_singleton (c : Prop) [Decidable c] (x e : REvent) :
    (if c then ([] : List REvent) else [x]).count e ≤ 1 := by
  split
  · simp
  · rw [List.count_singleton']
    split <;> simp

/-- A reconciliation step fires each entry-level event kind at most
once. -/
theorem applyWireItem_entry_count_le_one (st : RosterState) (w : WireItem)
    (e : REvent) (hj : entryEvJid e ≠ none) :
    (applyWireItem st w).2.count e ≤ 1 := by
  unfold applyWireItem
  by_cases hrem : w.subscription = "remove"
  · rw [if_pos hrem]
    unfold removeEntry
    cases hf : findItem st.items w.jid with
    | none => simp
    | some old =>
      simp only [List.count_append]
      rw [count_entry_removeFromGroups _ _ _ _ hj, List.count_singleton']
      split <;> simp
  · rw [if_neg hrem]
    unfold updateEntry
    cases hf : findItem st.items w.jid with
    | some old =>
      unfold updateExisting
      simp only [List.count_append]
      rw [count_entry_removeFromGroups _ _ _ _ hj,
        count_entry_addToGroups _ _ _ _ hj,
        count_entry_mapRemovedFromGroup _ _ _ hj,
        count_entry_mapAddedToGroup _ _ _ hj]
      have hpair : (if old.name = w.name then ([] : List REvent)
            else [REvent.entryNameChanged w.jid]).count e +
          (if old.subscription = w.subscription ∧ old.ask = w.ask ∧
              old.approved = w.approved then ([] : List REvent)
            else [REvent.entrySubscriptionStateChanged w.jid]).count e ≤ 1 := by
        by_cases he1 : e = REvent.entryNameChanged w.jid
        · have h2 : (if old.subscription = w.subscription ∧ old.ask = w.ask ∧
              old.approved = w.approved then ([] : List REvent)
              else [REvent.entrySubscriptionStateChanged w.jid]).count e = 0 := by
            apply count_eq_zero_of_shape
            intro x hx hc
            split at hx
            · cases hx
            · rw [List.mem_singleton.mp hx, he1] at hc
              cases hc
          rw [h2]
          have := count_ite_singleton (old.name = w.name)
            (REvent.entryNameChanged w.jid) e
          omega
        · have h1 : (if old.name = w.name then ([] : List REvent)
              else [REvent.entryNameChanged w.jid]).count e = 0 := by
            apply count_eq_zero_of_shape
            intro x hx hc
            split at hx
            · cases hx
            · rw [List.mem_singleton.mp hx] at hc
              exact he1 hc.symm
          rw [h1]
          have := count_ite_singleton (old.subscription = w.subscription ∧
            old.ask = w.ask ∧ old.approved = w.approved)
            (REvent.entrySubscriptionStateChanged w.jid) e
          omega
      omega
    | none =>
      unfold createEntry
      simp only [List.count_append]
      rw [count_entry_addToGroups _ _ _ _ hj, List.count_singleton']
      split <;> simp

theorem countEv_applyItems_cons (st : RosterState) (w : WireItem)
    (ws : List WireItem) (e : REvent) :
    countEv (applyItems st (w :: ws)).2 e =
      (applyWireItem st w).2.count e +
        countEv (applyItems (applyWireItem st w).1 ws).2 e := by
  unfold countEv
  rw [applyItems_snd_cons, List.map_append, List.count_append, List.map_map]
  rw [show (Prod.snd ∘ fun ev => ((applyWireItem st w).1, ev)) =
    fun ev => ev from rfl]
  rw [List.map_id']

theorem countEv_applyItems_zero (st : RosterState) (ws : List WireItem)
    (e : REvent) (j : String) (hje : entryEvJid e = some j)
    (h : j ∉ ws.map WireItem.jid) : countEv (applyItems st ws).2 e = 0 := by
  induction ws generalizing st with
  | nil => rfl
  | cons w rest ih =>
    rw [List.map_cons, List.mem_cons] at h
    push_neg at h
    rw [countEv_applyItems_cons]
    rw [applyWireItem_entry_count_other st w e j hje h.1, ih _ h.2]

theorem countEv_applyItems_le_one (st : RosterState) (ws : List WireItem)
    (e : REvent) (j : String) (hje : entryEvJid e = some j)
    (hnd : (ws.map WireItem.jid).Nodup) :
    countEv (applyItems st ws).2 e ≤ 1 := by
  induction ws generalizing st with
  | nil => simp [countEv, applyItems]
  | cons w rest ih =>
    rw [List.map_cons, List.nodup_cons] at hnd
    rw [countEv_applyItems_cons]
    by_cases hj : j = w.jid
    · have h1 : (applyWireItem st w).2.count e ≤ 1 :=
        applyWireItem_entry_count_le_one st w e (by rw [hje]; simp)
      have h2 : countEv (applyItems (applyWireItem st w).1 rest).2 e = 0 :=
        countEv_applyItems_zero _ rest e j hje (by rw [hj]; exact hnd.1)
      omega
    · rw [applyWireItem_entry_count_other st w e j hje hj]
      simpa using ih _ hnd.2

/-- C4: applying the same roster push twice fires each change event only
once — the second application leaves the store exactly as it was and
emits no events at all, so the combined event trace of both applications
is the first application's trace, in which each entry-level event kind
occurs at most once per address. -/
theorem same_push_twice_fires_events_once (st : RosterState) (q : Query)
    (hwf : WfJids st) (hnd : (q.items.map WireItem.jid).Nodup) :
    applyPush (applyPush st q).1 q = ((applyPush st q).1, []) ∧
    (∀ e, countEv ((applyPush st q).2 ++ (applyPush (applyPush st q).1 q).2) e =
      countEv (applyPush st q).2 e) ∧
    (∀ j, countEv (applyPush st q).2 (REvent.entryNameChanged j) ≤ 1 ∧
      countEv (applyPush st q).2 (REvent.entrySubscriptionStateChanged j) ≤ 1 ∧
      countEv (applyPush st q).2 (REvent.entryRemoved j) ≤ 1 ∧
      countEv (applyPush st q).2 (REvent.entryAdded j) ≤ 1) := by
  have hsat : ∀ w ∈ q.items, SatP (applyPush st q).1 w := by
    intro w hw
    exact applyItems_saturates st q.items hnd w hw
  have hwf1 : WfJids (applyPush st q).1 :=
    WfJids_applyItems st q.items hwf
  have hnoop : applyItems (applyPush st q).1 q.items =
      ((applyPush st q).1, []) :=
    applyItems_of_SatP _ _ hwf1 hsat
  have hmain : applyPush (applyPush st q).1 q = ((applyPush st q).1, []) := by
    rw [show applyPush (applyPush st q).1 q =
      ({ (applyItems (applyPush st q).1 q.items).1 with ver := q.ver },
        (applyItems (applyPush st q).1 q.items).2) from rfl, hnoop]
    rfl
  refine ⟨hmain, ?_, ?_⟩
  · intro e
    rw [show (applyPush (applyPush st q).1 q).2 = ([] : List Emit) by
      rw [hmain]]
    rw [List.append_nil]
  · intro j
    refine ⟨?_, ?_, ?_, ?_⟩ <;>
      exact countEv_applyItems_le_one st q.items _ j rfl hnd

/-- Witness for C4: pushing a one-item name change to an empty store,
twice. -/
theorem same_push_twice_witness :
    applyPush (applyPush {}
        { items := [{ jid := "user@foo.example", name := some "foobarbaz" }],
          ver := some "foobar" }).1
      { items := [{ jid := "user@foo.example", name := some "foobarbaz" }],
        ver := some "foobar" } =
      ((applyPush {}
        { items := [{ jid := "user@foo.example", name := some "foobarbaz" }],
          ver := some "foobar" }).1, []) ∧
    countEv (applyPush {}
        { items := [{ jid := "user@foo.example", name := some "foobarbaz" }],
          ver := some "foobar" }).2
      (REvent.entryNameChanged "user@foo.example") ≤ 1 := by
  constructor
  · exact (same_push_twice_fires_events_once {}
      { items := [{ jid := "user@foo.example", name := some "foobarbaz" }],
        ver := some "foobar" } (by unfold WfJids; decide) (by decide)).1
  · exact ((same_push_twice_fires_events_once {}
      { items := [{ jid := "user@foo.example", name := some "foobarbaz" }],
        ver := some "foobar" } (by unfold WfJids; decide) (by decide)).2.2
      "user@foo.example").1

/-- Re-importing an exported store finds, at every address, a fresh record
carrying the same subscription, ask, approval, name and group set. -/
theorem findItem_mkImportItems_export (base : Nat) (items : List Item)
    (j : String) :
    (findItem items j = none →
      findItem (mkImportItems base
        (items.map (fun it => (it.jid, it.export_as_json)))) j = none) ∧
    ∀ it, findItem items j = some it →
      ∃ u, findItem (mkImportItems base
          (items.map (fun it2 => (it2.jid, it2.export_as_json)))) j = some u ∧
        u.subscription = it.subscription ∧ u.ask = it.ask ∧
        u.approved = it.approved ∧ u.name = it.name ∧
        (∀ g, g ∈ u.groups ↔ g ∈ it.groups) := by
  induction items generalizing base with
  | nil => exact ⟨fun _ => rfl, fun it h => by cases h⟩
  | cons a l ih =>
    rw [List.map_cons]
    rw [show mkImportItems base
        ((a.jid, a.export_as_json) :: l.map (fun it2 => (it2.jid, it2.export_as_json))) =
      Item.update_from_json
          { iid := base, jid := a.jid, subscription := "none", ask := none,
            approved := false, name := none, groups := [] } a.export_as_json
        :: mkImportItems (base + 1)
          (l.map (fun it2 => (it2.jid, it2.export_as_json))) from rfl]
    rw [findItem_cons, findItem_cons]
    rw [show (Item.update_from_json
        { iid := base, jid := a.jid, subscription := "none", ask := none,
          approved := false, name := none, groups := [] }
        a.export_as_json).jid = a.jid from rfl]
    by_cases ha : a.jid = j
    · rw [if_pos ha, if_pos ha]
      refine ⟨(fun h => by cases h), ?_⟩
      intro it h
      have hit : it = a := by cases h; rfl
      subst hit
      refine ⟨_, rfl, ?_, rfl, ?_, rfl, ?_⟩
      · rfl
      · show (if it.approved then some true else none).getD false = it.approved
        by_cases hap : it.approved <;> simp [hap]
      · intro g
        show g ∈ ((if it.groups = [] then none
            else some (it.groups.insertionSort (fun x y => x ≤ y))).getD
              []).dedup ↔ g ∈ it.groups
        by_cases hg : it.groups = []
        · rw [if_pos hg, hg]
          simp
        · rw [if_neg hg]
          simp only [Option.getD_some, List.mem_dedup]
          exact (List.perm_insertionSort (fun x y => x ≤ y) it.groups).mem_iff
    · rw [if_neg ha, if_neg ha]
      exact ih (base + 1)

/-- C5: exporting a roster as JSON and importing the result into any
roster state reproduces an equivalent store: same addresses, same
subscription, ask, approval, name and group set per address, same version
token — and the import path emits zero events while replacing the entire
prior store contents. -/
theorem export_import_roundtrip (st st0 : RosterState) :
    (import_from_json st0 (export_as_json st)).2 = [] ∧
    (import_from_json st0 (export_as_json st)).1.ver = st.ver ∧
    (∀ j, findItem st.items j = none →
      findItem (import_from_json st0 (export_as_json st)).1.items j = none) ∧
    (∀ j it, findItem st.items j = some it →
      ∃ u, findItem (import_from_json st0 (export_as_json st)).1.items j
          = some u ∧
        u.subscription = it.subscription ∧ u.ask = it.ask ∧
        u.approved = it.approved ∧ u.name = it.name ∧
        (∀ g, g ∈ u.groups ↔ g ∈ it.groups)) := by
  refine ⟨rfl, rfl, ?_, ?_⟩
  · intro j h
    exact (findItem_mkImportItems_export st0.nextIid st.items j).1 h
  · intro j it h
    exact (findItem_mkImportItems_export st0.nextIid st.items j).2 it h

/-- Witness for C5: a two-item store with groups, names and approval flags
round-trips through export and import into an unrelated state. -/
theorem export_import_roundtrip_witness :
    (import_from_json
        { items := [{ iid := 9, jid := "other@x.example" }], nextIid := 10 }
        (export_as_json
          { items := [{ iid := 0, jid := "user@foo.example",
                        subscription := "both", approved := true,
                        name := some "foo", groups := ["b", "a"] }],
            ver := some "foobar", nextIid := 1 })).2 = [] ∧
    (∃ u, findItem (import_from_json
        { items := [{ iid := 9, jid := "other@x.example" }], nextIid := 10 }
        (export_as_json
          { items := [{ iid := 0, jid := "user@foo.example",
                        subscription := "both", approved := true,
                        name := some "foo", groups := ["b", "a"] }],
            ver := some "foobar", nextIid := 1 })).1.items "user@foo.example"
        = some u ∧
      u.subscription = "both" ∧ u.ask = none ∧ u.approved = true ∧
      u.name = some "foo" ∧ (∀ g, g ∈ u.groups ↔ g ∈ ["b", "a"])) := by
  constructor
  · exact (export_import_roundtrip
      { items := [{ iid := 0, jid := "user@foo.example",
                    subscription := "both", approved := true,
                    name := some "foo", groups := ["b", "a"] }],
        ver := some "foobar", nextIid := 1 }
      { items := [{ iid := 9, jid := "other@x.example" }], nextIid := 10 }).1
  · exact (export_import_roundtrip
      { items := [{ iid := 0, jid := "user@foo.example",
                    subscription := "both", approved := true,
                    name := some "foo", groups := ["b", "a"] }],
        ver := some "foobar", nextIid := 1 }
      { items := [{ iid := 9, jid := "other@x.example" }], nextIid := 10 }).2.2.2
      "user@foo.example"
      { iid := 0, jid := "user@foo.example", subscription := "both",
        approved := true, name := some "foo", groups := ["b", "a"] } rfl

theorem indexMembers_cons (e : String × List String) (rest : Index)
    (g : String) :
    indexMembers (e :: rest) g = if e.1 = g then e.2 else indexMembers rest g
  := rfl

theorem indexHasKey_cons (e : String × List String) (rest : Index)
    (g : String) :
    indexHasKey (e :: rest) g = (decide (e.1 = g) || indexHasKey rest g) := rfl

theorem removeMember_cons (e : String × List String) (rest : Index)
    (g j : String) :
    removeMember (e :: rest) g j =
      if e.1 = g then
        (if e.2.filter (fun x => decide (x ≠ j)) = [] then []
          else [(g, e.2.filter (fun x => decide (x ≠ j)))]) ++ rest
      else e :: removeMember rest g j := rfl

theorem addMember_cons (e : String × List String) (rest : Index)
    (g j : String) :
    addMember (e :: rest) g j =
      if e.1 = g then (g, if j ∈ e.2 then e.2 else e.2 ++ [j]) :: rest
      else e :: addMember rest g j := rfl

theorem removeFromGroups_cons (idx : Index) (j g : String)
    (gs : List String) :
    removeFromGroups idx j (g :: gs) =
      ((removeFromGroups (removeMember idx g j) j gs).1,
        (if indexHasKey idx g && !(indexHasKey (removeMember idx g j) g) then
          [REvent.groupRemoved g] else [])
        ++ (removeFromGroups (removeMember idx g j) j gs).2) := rfl

theorem addToGroups_cons (idx : Index) (j g : String) (gs : List String) :
    addToGroups idx j (g :: gs) =
      ((addToGroups (addMember idx g j) j gs).1,
        (if indexHasKey idx g then [] else [REvent.groupAdded g])
        ++ (addToGroups (addMember idx g j) j gs).2) := rfl

theorem members_nil_of_not_hasKey {idx : Index} {g : String}
    (h : indexHasKey idx g = false) : indexMembers idx g = [] := by
  induction idx with
  | nil => rfl
  | cons e rest ih =>
    unfold indexHasKey at h
    rw [Bool.or_eq_false_iff] at h
    unfold indexMembers
    rw [if_neg (by simpa using h.1)]
    exact ih h.2

theorem hasKey_of_members_ne {idx : Index} {g : String}
    (h : indexMembers idx g ≠ []) : indexHasKey idx g = true := by
  by_cases hk : indexHasKey idx g = true
  · exact hk
  · exact absurd (members_nil_of_not_hasKey (by simpa using hk)) h

theorem mem_of_hasKey {idx : Index} {g : String}
    (h : indexHasKey idx g = true) : (g, indexMembers idx g) ∈ idx := by
  induction idx with
  | nil => cases h
  | cons e rest ih =>
    rw [indexHasKey_cons] at h
    rw [indexMembers_cons]
    by_cases he : e.1 = g
    · rw [if_pos he, ← he]
      exact List.mem_cons_self e rest
    · rw [if_neg he]
      exact List.mem_cons_of_mem e (ih (by simpa [he] using h))

theorem members_eq_of_mem {idx : Index} (hnd : (idx.map Prod.fst).Nodup)
    {e : String × List String} (he : e ∈ idx) :
    indexMembers idx e.1 = e.2 := by
  induction idx with
  | nil => cases he
  | cons a rest ih =>
    rw [List.map_cons, List.nodup_cons] at hnd
    unfold indexMembers
    rcases List.mem_cons.mp he with rfl | he2
    · rw [if_pos rfl]
    · by_cases ha : a.1 = e.1
      · exfalso
        apply hnd.1
        rw [ha]
        exact List.mem_map.mpr ⟨e, he2, rfl⟩
      · rw [if_neg ha]
        exact ih hnd.2 he2

theorem not_hasKey_rest {e : String × List String} {rest : Index} {g : String}
    (hnd : ((e :: rest).map Prod.fst).Nodup) (he : e.1 = g) :
    indexHasKey rest g = false := by
  rw [List.map_cons, List.nodup_cons] at hnd
  by_cases hk : indexHasKey rest g = true
  · exfalso
    apply hnd.1
    rw [he]
    exact List.mem_map.mpr ⟨(g, indexMembers rest g), mem_of_hasKey hk, rfl⟩
  · simpa using hk

theorem removeMember_members_self (idx : Index) (g j : String)
    (hnd : (idx.map Prod.fst).Nodup) :
    indexMembers (removeMember idx g j) g =
      (indexMembers idx g).filter (fun x => decide (x ≠ j)) := by
  induction idx with
  | nil => rfl
  | cons e rest ih =>
    by_cases he : e.1 = g
    · rw [removeMember_cons, if_pos he, indexMembers_cons, if_pos he]
      by_cases hms : e.2.filter (fun x => decide (x ≠ j)) = []
      · rw [if_pos hms, List.nil_append, hms]
        exact members_nil_of_not_hasKey (not_hasKey_rest hnd he)
      · rw [if_neg hms, List.cons_append, indexMembers_cons, if_pos rfl]
    · rw [removeMember_cons, if_neg he, indexMembers_cons, if_neg he,
        indexMembers_cons, if_neg he]
      rw [List.map_cons, List.nodup_cons] at hnd
      exact ih hnd.2

/-- Witness for C3 at the concrete addresses of the test suite: a push
from another user is rejected without touching the state, a push from the
bare local address is accepted. -/
theorem roster_push_authorization_witness :
    handle_roster_push "foo@bar.example/fnord" {}
        { origin := some "fnord@bar.example", payload := {} } =
      ({}, some ErrorCondition.forbidden, []) ∧
    (handle_roster_push "foo@bar.example/fnord" {}
        { origin := some "foo@bar.example", payload := {} }).2.1 = none := by
  constructor
  · exact (roster_push_authorization "foo@bar.example/fnord" {} _).1
      "fnord@bar.example" rfl (by decide)
  · exact (roster_push_authorization "foo@bar.example/fnord" {} _).2
      (Or.inr (by decide))

theorem removeMember_members_other (idx : Index) (g j g2 : String)
    (hne : g2 ≠ g) :
    indexMembers (removeMember idx g j) g2 = indexMembers idx g2 := by
  induction idx with
  | nil => rfl
  | cons e rest ih =>
    by_cases he : e.1 = g
    · have heg2 : ¬ e.1 = g2 := by
        rw [he]
        exact fun hc => hne hc.symm
      rw [removeMember_cons, if_pos he]
      by_cases hms : e.2.filter (fun x => decide (x ≠ j)) = []
      · rw [if_pos hms, List.nil_append, indexMembers_cons, if_neg heg2]
      · rw [if_neg hms, List.cons_append, indexMembers_cons,
          indexMembers_cons, if_neg heg2,
          if_neg (show ¬ ((g, e.2.filter (fun x => decide (x ≠ j))) :
            String × List String).1 = g2 from fun hc => hne hc.symm),
          List.nil_append]
    · rw [removeMember_cons, if_neg he, indexMembers_cons, indexMembers_cons]
      by_cases he2 : e.1 = g2
      · rw [if_pos he2, if_pos he2]
      · rw [if_neg he2, if_neg he2]
        exact ih

theorem removeMember_hasKey_other (idx : Index) (g j g2 : String)
    (hne : g2 ≠ g) :
    indexHasKey (removeMember idx g j) g2 = indexHasKey idx g2 := by
  induction idx with
  | nil => rfl
  | cons e rest ih =>
    by_cases he : e.1 = g
    · rw [removeMember_cons, if_pos he, indexHasKey_cons]
      by_cases hms : e.2.filter (fun x => decide (x ≠ j)) = []
      · rw [if_pos hms, List.nil_append]
        have : decide (e.1 = g2) = false := by
          simp only [decide_eq_false_iff_not]
          rw [he]
          exact fun hc => hne hc.symm
        rw [this]
        simp
      · rw [if_neg hms, List.cons_append, indexHasKey_cons]
        have heq : decide ((g, e.2.filter (fun x => decide (x ≠ j))).1 = g2) =
            decide (e.1 = g2) := by
          simp only []
          rw [he]
        rw [heq, List.nil_append]
    · rw [removeMember_cons, if_neg he, indexHasKey_cons, indexHasKey_cons, ih]

theorem removeMember_hasKey_self (idx : Index) (g j : String)
    (hnd : (idx.map Prod.fst).Nodup) :
    indexHasKey (removeMember idx g j) g =
      (indexHasKey idx g &&
        decide ((indexMembers idx g).filter (fun x => decide (x ≠ j)) ≠ []))
  := by
  induction idx with
  | nil => rfl
  | cons e rest ih =>
    by_cases he : e.1 = g
    · rw [removeMember_cons, if_pos he, indexHasKey_cons, indexMembers_cons,
        if_pos he]
      rw [show decide (e.1 = g) = true from by simp [he], Bool.true_or]
      by_cases hms : e.2.filter (fun x => decide (x ≠ j)) = []
      · rw [if_pos hms, List.nil_append, not_hasKey_rest hnd he, hms]
        simp
      · rw [if_neg hms, List.cons_append, indexHasKey_cons, List.nil_append]
        rw [decide_eq_true hms]
        simp
    · rw [removeMember_cons, if_neg he, indexHasKey_cons, indexHasKey_cons,
        indexMembers_cons, if_neg he]
      rw [List.map_cons, List.nodup_cons] at hnd
      rw [ih hnd.2]
      rw [show decide (e.1 = g) = false from by simp [he]]
      simp

theorem removeMember_keys_sublist (idx : Index) (g j : String) :
    ((removeMember idx g j).map Prod.fst).Sublist (idx.map Prod.fst) := by
  induction idx with
  | nil => exact List.Sublist.refl _
  | cons e rest ih =>
    by_cases he : e.1 = g
    · rw [removeMember_cons, if_pos he]
      by_cases hms : e.2.filter (fun x => decide (x ≠ j)) = []
      · rw [if_pos hms, List.nil_append, List.map_cons]
        exact (List.Sublist.refl _).cons _
      · rw [if_neg hms, List.cons_append, List.map_cons, List.map_cons,
          List.nil_append]
        show (g :: List.map Prod.fst rest).Sublist
          (e.1 :: List.map Prod.fst rest)
        rw [he]
    · rw [removeMember_cons, if_neg he, List.map_cons, List.map_cons]
      exact ih.cons₂ _

theorem removeMember_nonempty (idx : Index) (g j : String)
    (h : ∀ e ∈ idx, e.2 ≠ []) :
    ∀ e ∈ removeMember idx g j, e.2 ≠ [] := by
  induction idx with
  | nil => intro e he; cases he
  | cons a rest ih =>
    intro e he
    by_cases ha : a.1 = g
    · rw [removeMember_cons, if_pos ha] at he
      by_cases hms : a.2.filter (fun x => decide (x ≠ j)) = []
      · rw [if_pos hms, List.nil_append] at he
        exact h e (List.mem_cons_of_mem a he)
      · rw [if_neg hms, List.cons_append] at he
        rcases List.mem_cons.mp he with rfl | he2
        · exact hms
        · exact h e (List.mem_cons_of_mem a he2)
    · rw [removeMember_cons, if_neg ha] at he
      rcases List.mem_cons.mp he with rfl | he2
      · exact h e (List.mem_cons_self e rest)
      · exact ih (fun e2 he2 => h e2 (List.mem_cons_of_mem a he2)) e he2

theorem addMember_members_self (idx : Index) (g j : String) :
    indexMembers (addMember idx g j) g =
      (if j ∈ indexMembers idx g then indexMembers idx g
        else indexMembers idx g ++ [j]) := by
  induction idx with
  | nil =>
    rw [show addMember [] g j = [(g, [j])] from rfl, indexMembers_cons,
      if_pos rfl]
    rw [show indexMembers ([] : Index) g = [] from rfl]
    simp
  | cons e rest ih =>
    by_cases he : e.1 = g
    · rw [addMember_cons, if_pos he, indexMembers_cons, if_pos rfl,
        indexMembers_cons, if_pos he]
    · rw [addMember_cons, if_neg he, indexMembers_cons, if_neg he,
        indexMembers_cons, if_neg he]
      exact ih

theorem addMember_members_other (idx : Index) (g j g2 : String)
    (hne : g2 ≠ g) :
    indexMembers (addMember idx g j) g2 = indexMembers idx g2 := by
  induction idx with
  | nil =>
    rw [show addMember [] g j = [(g, [j])] from rfl, indexMembers_cons,
      if_neg (show ¬ ((g, [j]) : String × List String).1 = g2
        from fun hc => hne hc.symm)]
  | cons e rest ih =>
    by_cases he : e.1 = g
    · rw [addMember_cons, if_pos he, indexMembers_cons, indexMembers_cons]
      rw [if_neg (fun hc => hne hc.symm),
        if_neg (by rw [he]; exact fun hc => hne hc.symm)]
    · rw [addMember_cons, if_neg he, indexMembers_cons, indexMembers_cons]
      by_cases he2 : e.1 = g2
      · rw [if_pos he2, if_pos he2]
      · rw [if_neg he2, if_neg he2]
        exact ih

theorem addMember_hasKey_self (idx : Index) (g j : String) :
    indexHasKey (addMember idx g j) g = true := by
  induction idx with
  | nil => simp [addMember, indexHasKey_cons]
  | cons e rest ih =>
    by_cases he : e.1 = g
    · rw [addMember_cons, if_pos he, indexHasKey_cons]
      simp
    · rw [addMember_cons, if_neg he, indexHasKey_cons, ih]
      simp

theorem addMember_hasKey_other (idx : Index) (g j g2 : String)
    (hne : g2 ≠ g) :
    indexHasKey (addMember idx g j) g2 = indexHasKey idx g2 := by
  induction idx with
  | nil =>
    rw [show addMember [] g j = [(g, [j])] from rfl, indexHasKey_cons]
    have : decide ((g, [j]).1 = g2) = false := by
      simp only [decide_eq_false_iff_not]
      exact fun hc => hne hc.symm
    rw [this]
    rfl
  | cons e rest ih =>
    by_cases he : e.1 = g
    · rw [addMember_cons, if_pos he, indexHasKey_cons, indexHasKey_cons]
      have : decide ((g, if j ∈ e.2 then e.2 else e.2 ++ [j]).1 = g2) =
          decide (e.1 = g2) := by
        simp only []
        rw [he]
      rw [this]
    · rw [addMember_cons, if_neg he, indexHasKey_cons, indexHasKey_cons, ih]

theorem addMember_keys (idx : Index) (g j : String) :
    (addMember idx g j).map Prod.fst =
      (if indexHasKey idx g then idx.map Prod.fst
        else idx.map Prod.fst ++ [g]) := by
  induction idx with
  | nil => rfl
  | cons e rest ih =>
    by_cases he : e.1 = g
    · rw [addMember_cons, if_pos he, indexHasKey_cons]
      rw [show decide (e.1 = g) = true from by simp [he]]
      rw [Bool.true_or, if_pos rfl, List.map_cons, List.map_cons]
      simp [he]
    · rw [addMember_cons, if_neg he, indexHasKey_cons]
      rw [show decide (e.1 = g) = false from by simp [he]]
      rw [Bool.false_or, List.map_cons, List.map_cons, ih]
      by_cases hk : indexHasKey rest g = true
      · rw [hk, if_pos rfl, if_pos rfl]
      · rw [show indexHasKey rest g = false from by simpa using hk]
        rw [if_neg (by simp), if_neg (by simp)]
        rfl

theorem addMember_nonempty (idx : Index) (g j : String)
    (h : ∀ e ∈ idx, e.2 ≠ []) :
    ∀ e ∈ addMember idx g j, e.2 ≠ [] := by
  induction idx with
  | nil =>
    intro e he
    rw [show addMember [] g j = [(g, [j])] from rfl] at he
    rw [List.mem_singleton.mp he]
    simp
  | cons a rest ih =>
    intro e he
    by_cases ha : a.1 = g
    · rw [addMember_cons, if_pos ha] at he
      rcases List.mem_cons.mp he with rfl | he2
      · by_cases hj : j ∈ a.2
        · simp only [if_pos hj]
          exact h a (List.mem_cons_self a rest)
        · simp only [if_neg hj]
          simp
      · exact h e (List.mem_cons_of_mem a he2)
    · rw [addMember_cons, if_neg ha] at he
      rcases List.mem_cons.mp he with rfl | he2
      · exact h e (List.mem_cons_self e rest)
      · exact ih (fun e2 he2b => h e2 (List.mem_cons_of_mem a he2b)) e he2

theorem hasKey_of_mem_keys {idx : Index} {g : String}
    (h : g ∈ idx.map Prod.fst) : indexHasKey idx g = true := by
  induction idx with
  | nil => cases h
  | cons e rest ih =>
    rw [indexHasKey_cons]
    rw [List.map_cons, List.mem_cons] at h
    rcases h with rfl | h
    · simp
    · rw [ih h]
      simp

theorem removeFromGroups_members_other (idx : Index) (j : String)
    (gs : List String) (g2 : String) (h : g2 ∉ gs) :
    indexMembers (removeFromGroups idx j gs).1 g2 = indexMembers idx g2 := by
  induction gs generalizing idx with
  | nil => rfl
  | cons g rest ih =>
    rw [List.mem_cons] at h
    push_neg at h
    rw [removeFromGroups_cons]
    simp only []
    rw [ih _ h.2]
    exact removeMember_members_other idx g j g2 h.1

theorem removeFromGroups_hasKey_other (idx : Index) (j : String)
    (gs : List String) (g2 : String) (h : g2 ∉ gs) :
    indexHasKey (removeFromGroups idx j gs).1 g2 = indexHasKey idx g2 := by
  induction gs generalizing idx with
  | nil => rfl
  | cons g rest ih =>
    rw [List.mem_cons] at h
    push_neg at h
    rw [removeFromGroups_cons]
    simp only []
    rw [ih _ h.2]
    exact removeMember_hasKey_other idx g j g2 h.1

theorem removeFromGroups_keys_sublist (idx : Index) (j : String)
    (gs : List String) :
    ((removeFromGroups idx j gs).1.map Prod.fst).Sublist
      (idx.map Prod.fst) := by
  induction gs generalizing idx with
  | nil => exact List.Sublist.refl _
  | cons g rest ih =>
    rw [removeFromGroups_cons]
    exact (ih (removeMember idx g j)).trans (removeMember_keys_sublist idx g j)

theorem removeFromGroups_nonempty (idx : Index) (j : String)
    (gs : List String) (h : ∀ e ∈ idx, e.2 ≠ []) :
    ∀ e ∈ (removeFromGroups idx j gs).1, e.2 ≠ [] := by
  induction gs generalizing idx with
  | nil => exact h
  | cons g rest ih =>
    rw [removeFromGroups_cons]
    exact ih _ (removeMember_nonempty idx g j h)

theorem removeFromGroups_members_self (idx : Index) (j : String)
    (gs : List String) (g2 : String) (hnd : (idx.map Prod.fst).Nodup)
    (hgs : gs.Nodup) (h : g2 ∈ gs) :
    indexMembers (removeFromGroups idx j gs).1 g2 =
      (indexMembers idx g2).filter (fun x => decide (x ≠ j)) := by
  induction gs generalizing idx with
  | nil => cases h
  | cons g rest ih =>
    rw [List.nodup_cons] at hgs
    rw [removeFromGroups_cons]
    simp only []
    rcases List.mem_cons.mp h with rfl | h2
    · rw [removeFromGroups_members_other _ _ _ _ hgs.1]
      exact removeMember_members_self idx g2 j hnd
    · by_cases hgg : g2 = g
      · rw [hgg] at h2
        exact absurd h2 hgs.1
      · rw [ih _ (hnd.sublist (removeMember_keys_sublist idx g j)) hgs.2 h2]
        rw [removeMember_members_other idx g j g2 hgg]

theorem removeFromGroups_hasKey_self (idx : Index) (j : String)
    (gs : List String) (g2 : String) (hnd : (idx.map Prod.fst).Nodup)
    (hgs : gs.Nodup) (h : g2 ∈ gs) :
    indexHasKey (removeFromGroups idx j gs).1 g2 =
      (indexHasKey idx g2 &&
        decide ((indexMembers idx g2).filter (fun x => decide (x ≠ j)) ≠ []))
  := by
  induction gs generalizing idx with
  | nil => cases h
  | cons g rest ih =>
    rw [List.nodup_cons] at hgs
    rw [removeFromGroups_cons]
    simp only []
    rcases List.mem_cons.mp h with rfl | h2
    · rw [removeFromGroups_hasKey_other _ _ _ _ hgs.1]
      exact removeMember_hasKey_self idx g2 j hnd
    · by_cases hgg : g2 = g
      · rw [hgg] at h2
        exact absurd h2 hgs.1
      · rw [ih _ (hnd.sublist (removeMember_keys_sublist idx g j)) hgs.2 h2]
        rw [removeMember_hasKey_other idx g j g2 hgg,
          removeMember_members_other idx g j g2 hgg]

theorem count_groupRemoved_if (b : Bool) (g g2 : String) (hgg : g2 ≠ g) :
    (if b = true then [REvent.groupRemoved g] else []).count
      (REvent.groupRemoved g2) = 0 := by
  split
  · rw [List.count_singleton']
    rw [if_neg (fun hc => hgg (by cases hc; rfl))]
  · rfl

theorem count_groupAdded_if (b : Bool) (g g2 : String) (hgg : g2 ≠ g) :
    (if b = true then [] else [REvent.groupAdded g]).count
      (REvent.groupAdded g2) = 0 := by
  split
  · rfl
  · rw [List.count_singleton']
    rw [if_neg (fun hc => hgg (by cases hc; rfl))]

theorem removeFromGroups_count (idx : Index) (j : String) (gs : List String)
    (g2 : String) (hnd : (idx.map Prod.fst).Nodup) (hgs : gs.Nodup) :
    (removeFromGroups idx j gs).2.count (REvent.groupRemoved g2) =
      if g2 ∈ gs ∧ indexHasKey idx g2 = true ∧
          (indexMembers idx g2).filter (fun x => decide (x ≠ j)) = []
        then 1 else 0 := by
  induction gs generalizing idx with
  | nil => simp [removeFromGroups]
  | cons g rest ih =>
    rw [List.nodup_cons] at hgs
    rw [removeFromGroups_cons]
    simp only [List.count_append]
    rw [ih _ (hnd.sublist (removeMember_keys_sublist idx g j)) hgs.2]
    by_cases hgg : g2 = g
    · subst hgg
      rw [if_neg (show ¬(g2 ∈ rest ∧
          indexHasKey (removeMember idx g2 j) g2 = true ∧
          (indexMembers (removeMember idx g2 j) g2).filter
            (fun x => decide (x ≠ j)) = []) from fun hc => hgs.1 hc.1)]
      by_cases hk : indexHasKey idx g2 = true
      · by_cases hms : (indexMembers idx g2).filter
            (fun x => decide (x ≠ j)) = []
        · have hcond : (indexHasKey idx g2 &&
              !(indexHasKey (removeMember idx g2 j) g2)) = true := by
            rw [removeMember_hasKey_self idx g2 j hnd, hk, hms]
            simp
          rw [if_pos hcond,
            if_pos (show g2 ∈ g2 :: rest ∧ indexHasKey idx g2 = true ∧
              (indexMembers idx g2).filter (fun x => decide (x ≠ j)) = []
              from ⟨List.mem_cons_self _ _, hk, hms⟩)]
          simp
        · have hcond : (indexHasKey idx g2 &&
              !(indexHasKey (removeMember idx g2 j) g2)) = false := by
            rw [removeMember_hasKey_self idx g2 j hnd, hk,
              decide_eq_true hms]
            simp
          rw [if_neg (show ¬((indexHasKey idx g2 &&
              !(indexHasKey (removeMember idx g2 j) g2)) = true)
              from by simp [hcond]),
            if_neg (show ¬(g2 ∈ g2 :: rest ∧ indexHasKey idx g2 = true ∧
              (indexMembers idx g2).filter (fun x => decide (x ≠ j)) = [])
              from fun hc => hms hc.2.2)]
          simp
      · have hcond : (indexHasKey idx g2 &&
            !(indexHasKey (removeMember idx g2 j) g2)) = false := by
          rw [show indexHasKey idx g2 = false from by simpa using hk]
          simp
        rw [if_neg (show ¬((indexHasKey idx g2 &&
            !(indexHasKey (removeMember idx g2 j) g2)) = true)
            from by simp [hcond]),
          if_neg (show ¬(g2 ∈ g2 :: rest ∧ indexHasKey idx g2 = true ∧
            (indexMembers idx g2).filter (fun x => decide (x ≠ j)) = [])
            from fun hc => hk hc.2.1)]
        simp
    · rw [count_groupRemoved_if _ g g2 hgg]
      by_cases hc : g2 ∈ rest ∧ indexHasKey idx g2 = true ∧
          (indexMembers idx g2).filter (fun x => decide (x ≠ j)) = []
      · rw [if_pos (show g2 ∈ rest ∧
            indexHasKey (removeMember idx g j) g2 = true ∧
            (indexMembers (removeMember idx g j) g2).filter
              (fun x => decide (x ≠ j)) = [] from
          ⟨hc.1,
            (removeMember_hasKey_other idx g j g2 hgg).trans hc.2.1,
            (congrArg (List.filter (fun x => decide (x ≠ j)))
              (removeMember_members_other idx g j g2 hgg)).trans hc.2.2⟩),
          if_pos (show g2 ∈ g :: rest ∧ indexHasKey idx g2 = true ∧
            (indexMembers idx g2).filter (fun x => decide (x ≠ j)) = []
            from ⟨List.mem_cons_of_mem g hc.1, hc.2.1, hc.2.2⟩)]
      · rw [if_neg (show ¬(g2 ∈ rest ∧
            indexHasKey (removeMember idx g j) g2 = true ∧
            (indexMembers (removeMember idx g j) g2).filter
              (fun x => decide (x ≠ j)) = []) from fun hc2 => hc
          ⟨hc2.1,
            (removeMember_hasKey_other idx g j g2 hgg).symm.trans hc2.2.1,
            ((congrArg (List.filter (fun x => decide (x ≠ j)))
              (removeMember_members_other idx g j g2 hgg)).symm).trans
              hc2.2.2⟩),
          if_neg (show ¬(g2 ∈ g :: rest ∧ indexHasKey idx g2 = true ∧
            (indexMembers idx g2).filter (fun x => decide (x ≠ j)) = [])
            from fun hc2 => hc
          ⟨(List.mem_cons.mp hc2.1).resolve_left hgg, hc2.2.1, hc2.2.2⟩)]

theorem addToGroups_members_other (idx : Index) (j : String)
    (gs : List String) (g2 : String) (h : g2 ∉ gs) :
    indexMembers (addToGroups idx j gs).1 g2 = indexMembers idx g2 := by
  induction gs generalizing idx with
  | nil => rfl
  | cons g rest ih =>
    rw [List.mem_cons] at h
    push_neg at h
    rw [addToGroups_cons]
    simp only []
    rw [ih _ h.2]
    exact addMember_members_other idx g j g2 h.1

theorem addToGroups_hasKey_other (idx : Index) (j : String)
    (gs : List String) (g2 : String) (h : g2 ∉ gs) :
    indexHasKey (addToGroups idx j gs).1 g2 = indexHasKey idx g2 := by
  induction gs generalizing idx with
  | nil => rfl
  | cons g rest ih =>
    rw [List.mem_cons] at h
    push_neg at h
    rw [addToGroups_cons]
    simp only []
    rw [ih _ h.2]
    exact addMember_hasKey_other idx g j g2 h.1

theorem addToGroups_members_self (idx : Index) (j : String)
    (gs : List String) (g2 : String) (hgs : gs.Nodup) (h : g2 ∈ gs) :
    indexMembers (addToGroups idx j gs).1 g2 =
      (if j ∈ indexMembers idx g2 then indexMembers idx g2
        else indexMembers idx g2 ++ [j]) := by
  induction gs generalizing idx with
  | nil => cases h
  | cons g rest ih =>
    rw [List.nodup_cons] at hgs
    rw [addToGroups_cons]
    simp only []
    rcases List.mem_cons.mp h with rfl | h2
    · rw [addToGroups_members_other _ _ _ _ hgs.1]
      exact addMember_members_self idx g2 j
    · by_cases hgg : g2 = g
      · rw [hgg] at h2
        exact absurd h2 hgs.1
      · rw [ih _ hgs.2 h2, addMember_members_other idx g j g2 hgg]

theorem addToGroups_hasKey_self (idx : Index) (j : String)
    (gs : List String) (g2 : String) (h : g2 ∈ gs) :
    indexHasKey (addToGroups idx j gs).1 g2 = true := by
  induction gs generalizing idx with
  | nil => cases h
  | cons g rest ih =>
    rw [addToGroups_cons]
    simp only []
    rcases List.mem_cons.mp h with rfl | h2
    · by_cases hr : g2 ∈ rest
      · exact ih _ hr
      · rw [addToGroups_hasKey_other _ _ _ _ hr]
        exact addMember_hasKey_self idx g2 j
    · exact ih _ h2

theorem addToGroups_nonempty (idx : Index) (j : String)
    (gs : List String) (h : ∀ e ∈ idx, e.2 ≠ []) :
    ∀ e ∈ (addToGroups idx j gs).1, e.2 ≠ [] := by
  induction gs generalizing idx with
  | nil => exact h
  | cons g rest ih =>
    rw [addToGroups_cons]
    exact ih _ (addMember_nonempty idx g j h)

theorem addToGroups_keys_nodup (idx : Index) (j : String)
    (gs : List String) (hnd : (idx.map Prod.fst).Nodup) :
    ((addToGroups idx j gs).1.map Prod.fst).Nodup := by
  induction gs generalizing idx with
  | nil => exact hnd
  | cons g rest ih =>
    rw [addToGroups_cons]
    apply ih
    rw [addMember_keys]
    by_cases hk : indexHasKey idx g = true
    · rw [if_pos hk]
      exact hnd
    · rw [if_neg (by simpa using hk)]
      rw [List.nodup_append]
      refine ⟨hnd, List.nodup_singleton g, ?_⟩
      intro a ha
      rw [List.mem_singleton]
      intro hc
      rw [hc] at ha
      exact hk (hasKey_of_mem_keys ha)

theorem addToGroups_count (idx : Index) (j : String) (gs : List String)
    (g2 : String) (hgs : gs.Nodup) :
    (addToGroups idx j gs).2.count (REvent.groupAdded g2) =
      if g2 ∈ gs ∧ indexHasKey idx g2 = false then 1 else 0 := by
  induction gs generalizing idx with
  | nil => simp [addToGroups]
  | cons g rest ih =>
    rw [List.nodup_cons] at hgs
    rw [addToGroups_cons]
    simp only [List.count_append]
    rw [ih _ hgs.2]
    by_cases hgg : g2 = g
    · subst hgg
      rw [if_neg (show ¬(g2 ∈ rest ∧
          indexHasKey (addMember idx g2 j) g2 = false)
          from fun hc => hgs.1 hc.1)]
      by_cases hk : indexHasKey idx g2 = true
      · rw [if_pos hk,
          if_neg (show ¬(g2 ∈ g2 :: rest ∧ indexHasKey idx g2 = false)
            from fun hc => by rw [hk] at hc; cases hc.2)]
        simp
      · rw [if_neg hk,
          if_pos (show g2 ∈ g2 :: rest ∧ indexHasKey idx g2 = false
            from ⟨List.mem_cons_self _ _, by simpa using hk⟩)]
        simp
    · rw [count_groupAdded_if _ g g2 hgg]
      by_cases hc : g2 ∈ rest ∧ indexHasKey idx g2 = false
      · rw [if_pos (show g2 ∈ rest ∧
            indexHasKey (addMember idx g j) g2 = false from
          ⟨hc.1, (addMember_hasKey_other idx g j g2 hgg).trans hc.2⟩),
          if_pos (show g2 ∈ g :: rest ∧ indexHasKey idx g2 = false
            from ⟨List.mem_cons_of_mem g hc.1, hc.2⟩)]
      · rw [if_neg (show ¬(g2 ∈ rest ∧
            indexHasKey (addMember idx g j) g2 = false) from fun hc2 => hc
          ⟨hc2.1,
            (addMember_hasKey_other idx g j g2 hgg).symm.trans hc2.2⟩),
          if_neg (show ¬(g2 ∈ g :: rest ∧ indexHasKey idx g2 = false)
            from fun hc2 => hc
          ⟨(List.mem_cons.mp hc2.1).resolve_left hgg, hc2.2⟩)]

theorem count_groupAdded_removeFromGroups (idx : Index) (j : String)
    (gs : List String) (g2 : String) :
    (removeFromGroups idx j gs).2.count (REvent.groupAdded g2) = 0 := by
  apply count_eq_zero_of_shape
  intro x hx hc
  obtain ⟨g, rfl⟩ := removeFromGroups_shape idx j gs x hx
  cases hc

theorem count_groupRemoved_addToGroups (idx : Index) (j : String)
    (gs : List String) (g2 : String) :
    (addToGroups idx j gs).2.count (REvent.groupRemoved g2) = 0 := by
  apply count_eq_zero_of_shape
  intro x hx hc
  obtain ⟨g, rfl⟩ := addToGroups_shape idx j gs x hx
  cases hc

/-- Well-formedness of an engine state: addresses are distinct, group
lists are duplicate-free, the index has distinct keys, no empty member
list ever stays in the index, and the index is sound and complete for the
store (every indexed membership is backed by an item and every item
membership is indexed). -/
def Wf (st : RosterState) : Prop :=
  (st.items.map Item.jid).Nodup ∧
  (∀ it ∈ st.items, it.groups.Nodup) ∧
  (st.groupIndex.map Prod.fst).Nodup ∧
  (∀ e ∈ st.groupIndex, e.2 ≠ []) ∧
  (∀ e ∈ st.groupIndex, ∀ j ∈ e.2,
    ∃ it ∈ st.items, it.jid = j ∧ e.1 ∈ it.groups) ∧
  (∀ it ∈ st.items, ∀ g ∈ it.groups,
    it.jid ∈ indexMembers st.groupIndex g)

theorem Wf.jidsNodup {st : RosterState} (h : Wf st) :
    (st.items.map Item.jid).Nodup := h.1

theorem Wf.groupsNodup {st : RosterState} (h : Wf st) :
    ∀ it ∈ st.items, it.groups.Nodup := h.2.1

theorem Wf.keysNodup {st : RosterState} (h : Wf st) :
    (st.groupIndex.map Prod.fst).Nodup := h.2.2.1

theorem Wf.entriesNonempty {st : RosterState} (h : Wf st) :
    ∀ e ∈ st.groupIndex, e.2 ≠ [] := h.2.2.2.1

theorem Wf.soundEntries {st : RosterState} (h : Wf st) :
    ∀ e ∈ st.groupIndex, ∀ j ∈ e.2,
      ∃ it ∈ st.items, it.jid = j ∧ e.1 ∈ it.groups := h.2.2.2.2.1

theorem Wf.complete {st : RosterState} (h : Wf st) :
    ∀ it ∈ st.items, ∀ g ∈ it.groups,
      it.jid ∈ indexMembers st.groupIndex g := h.2.2.2.2.2

/-- Soundness in member-list form: an indexed membership names a stored
holder. -/
theorem Wf.soundMembers {st : RosterState} (h : Wf st) {g j : String}
    (hj : j ∈ indexMembers st.groupIndex g) :
    ∃ it ∈ st.items, it.jid = j ∧ g ∈ it.groups := by
  have hne : indexMembers st.groupIndex g ≠ [] := by
    intro hc
    rw [hc] at hj
    cases hj
  exact h.soundEntries (g, indexMembers st.groupIndex g)
    (mem_of_hasKey (hasKey_of_members_ne hne)) j hj

theorem refd_iff {items : List Item} {g : String} :
    refd items g = true ↔ ∃ it ∈ items, g ∈ it.groups := by
  unfold refd
  rw [List.any_eq_true]
  constructor
  · rintro ⟨it, hit, hg⟩
    exact ⟨it, hit, of_decide_eq_true hg⟩
  · rintro ⟨it, hit, hg⟩
    exact ⟨it, hit, decide_eq_true hg⟩

/-- Under well-formedness, a group name is a key of the index exactly when
some stored item references it. -/
theorem Wf.hasKey_iff_refd {st : RosterState} (h : Wf st) (g : String) :
    indexHasKey st.groupIndex g = true ↔ refd st.items g = true := by
  constructor
  · intro hk
    have hmem := mem_of_hasKey hk
    have hne := h.entriesNonempty _ hmem
    obtain ⟨j, hj⟩ := List.exists_mem_of_ne_nil _ hne
    obtain ⟨it, hit, _, hg⟩ := h.soundEntries _ hmem j hj
    exact refd_iff.mpr ⟨it, hit, hg⟩
  · intro hr
    obtain ⟨it, hit, hg⟩ := refd_iff.mp hr
    have := h.complete it hit g hg
    exact hasKey_of_members_ne (fun hc => by rw [hc] at this; cases this)

/-- The unique stored record at a well-formed store's address is the one
`findItem` returns. -/
theorem eq_old_of_mem_jid {st : RosterState} (hnd : (st.items.map Item.jid).Nodup)
    {old it : Item} (hf : findItem st.items it.jid = some old)
    (hit : it ∈ st.items) : it = old := by
  have h1 : findItem st.items it.jid = some it :=
    findItem_eq_of_mem_nodup hnd hit
  rw [hf] at h1
  cases h1
  rfl

theorem count_group_ite_entry (c : Prop) [Decidable c] (x e : REvent)
    (hx : x ≠ e) :
    (if c then ([] : List REvent) else [x]).count e = 0 := by
  split
  · rfl
  · rw [List.count_singleton', if_neg (fun hc => hx hc)]

theorem count_map_removedFromGroup_group (j0 : String) (gs : List String)
    (e : REvent)
    (he : ∀ g2, e ≠ REvent.entryRemovedFromGroup j0 g2) :
    (gs.map (fun g2 => REvent.entryRemovedFromGroup j0 g2)).count e = 0 := by
  apply count_eq_zero_of_shape
  intro x hx hc
  obtain ⟨g2, _, rfl⟩ := List.mem_map.mp hx
  exact he g2 hc.symm

theorem count_map_addedToGroup_group (j0 : String) (gs : List String)
    (e : REvent)
    (he : ∀ g2, e ≠ REvent.entryAddedToGroup j0 g2) :
    (gs.map (fun g2 => REvent.entryAddedToGroup j0 g2)).count e = 0 := by
  apply count_eq_zero_of_shape
  intro x hx hc
  obtain ⟨g2, _, rfl⟩ := List.mem_map.mp hx
  exact he g2 hc.symm

theorem applyWireItem_mem_other (st : RosterState) (w : WireItem) (it : Item)
    (hit : it ∈ st.items) (hne : it.jid ≠ w.jid) :
    it ∈ (applyWireItem st w).1.items := by
  unfold applyWireItem
  by_cases hrem : w.subscription = "remove"
  · rw [if_pos hrem]
    unfold removeEntry
    cases hf : findItem st.items w.jid with
    | none => exact hit
    | some old =>
      simp only []
      exact List.mem_filter.mpr ⟨hit, decide_eq_true hne⟩
  · rw [if_neg hrem]
    unfold updateEntry
    cases hf : findItem st.items w.jid with
    | some old =>
      simp only []
      refine List.mem_map.mpr ⟨it, hit, ?_⟩
      rw [if_neg hne]
    | none =>
      simp only []
      exact List.mem_append_left _ hit

theorem applyWireItem_mem_other_rev (st : RosterState) (w : WireItem)
    (it : Item) (hit : it ∈ (applyWireItem st w).1.items)
    (hne : it.jid ≠ w.jid) : it ∈ st.items := by
  unfold applyWireItem at hit
  by_cases hrem : w.subscription = "remove"
  · rw [if_pos hrem] at hit
    unfold removeEntry at hit
    cases hf : findItem st.items w.jid with
    | none => rw [hf] at hit; exact hit
    | some old =>
      rw [hf] at hit
      simp only [] at hit
      exact (List.mem_filter.mp hit).1
  · rw [if_neg hrem] at hit
    unfold updateEntry at hit
    cases hf : findItem st.items w.jid with
    | some old =>
      rw [hf] at hit
      simp only [] at hit
      obtain ⟨it0, hit0, heq⟩ := List.mem_map.mp hit
      by_cases hj0 : it0.jid = w.jid
      · rw [if_pos hj0] at heq
        exfalso
        apply hne
        rw [← heq]
        simp [wireFields, findItem_some_jid hf]
      · rw [if_neg hj0] at heq
        rw [← heq]
        exact hit0
    | none =>
      rw [hf] at hit
      simp only [] at hit
      rcases List.mem_append.mp hit with hit | hit
      · exact hit
      · exfalso
        apply hne
        rw [List.mem_singleton.mp hit]
        rfl

/-- The removal step of a well-formed state stays well-formed, and its
group-removed events count exactly the groups whose last holder went
away; no group-added events fire. -/
theorem removeEntry_spec (st : RosterState) (j : String) (old : Item)
    (hwf : Wf st) (hf : findItem st.items j = some old) :
    Wf (removeEntry st j).1 ∧
    (∀ g, (removeEntry st j).2.count (REvent.groupRemoved g) =
      if refd st.items g = true ∧ refd (removeEntry st j).1.items g = false
        then 1 else 0) ∧
    (∀ g, (removeEntry st j).2.count (REvent.groupAdded g) =
      if refd st.items g = false ∧ refd (removeEntry st j).1.items g = true
        then 1 else 0) := by
  have hjid : old.jid = j := findItem_some_jid hf
  have hold_mem : old ∈ st.items := findItem_some_mem hf
  have hogN : old.groups.Nodup := hwf.groupsNodup old hold_mem
  have hst1 : (removeEntry st j).1 =
      { st with
          items := st.items.filter (fun it => decide (it.jid ≠ j))
          groupIndex := (removeFromGroups st.groupIndex j old.groups).1 } := by
    unfold removeEntry
    rw [hf]
  have hev : (removeEntry st j).2 =
      (removeFromGroups st.groupIndex j old.groups).2
        ++ [REvent.entryRemoved j] := by
    unfold removeEntry
    rw [hf]
  have hmem1 : ∀ it : Item,
      it ∈ (removeEntry st j).1.items ↔ it ∈ st.items ∧ it.jid ≠ j := by
    intro it
    rw [hst1]
    simp only []
    rw [List.mem_filter]
    constructor
    · rintro ⟨h1, h2⟩
      exact ⟨h1, of_decide_eq_true h2⟩
    · rintro ⟨h1, h2⟩
      exact ⟨h1, decide_eq_true h2⟩
  have hrefd1 : ∀ g, refd (removeEntry st j).1.items g = true ↔
      ∃ it ∈ st.items, it.jid ≠ j ∧ g ∈ it.groups := by
    intro g
    rw [refd_iff]
    constructor
    · rintro ⟨it, hit, hg⟩
      obtain ⟨h1, h2⟩ := (hmem1 it).mp hit
      exact ⟨it, h1, h2, hg⟩
    · rintro ⟨it, hit, hne, hg⟩
      exact ⟨it, (hmem1 it).mpr ⟨hit, hne⟩, hg⟩
  have hmembers : ∀ g, g ∈ old.groups →
      indexMembers (removeEntry st j).1.groupIndex g =
        (indexMembers st.groupIndex g).filter (fun x => decide (x ≠ j)) := by
    intro g hg
    rw [hst1]
    exact removeFromGroups_members_self _ _ _ _ hwf.keysNodup hogN hg
  have hmembers2 : ∀ g, g ∉ old.groups →
      indexMembers (removeEntry st j).1.groupIndex g =
        indexMembers st.groupIndex g := by
    intro g hg
    rw [hst1]
    exact removeFromGroups_members_other _ _ _ _ hg
  refine ⟨?_, ?_, ?_⟩
  · refine ⟨?_, ?_, ?_, ?_, ?_, ?_⟩
    · rw [hst1]
      exact hwf.jidsNodup.sublist
        (List.Sublist.map _ (List.filter_sublist _))
    · intro it hit
      exact hwf.groupsNodup it ((hmem1 it).mp hit).1
    · rw [hst1]
      exact hwf.keysNodup.sublist (removeFromGroups_keys_sublist _ _ _)
    · rw [hst1]
      exact removeFromGroups_nonempty _ _ _ hwf.entriesNonempty
    · intro e he j2 hj2
      have hkeys1 : ((removeEntry st j).1.groupIndex.map Prod.fst).Nodup := by
        rw [hst1]
        exact hwf.keysNodup.sublist (removeFromGroups_keys_sublist _ _ _)
      have hj2m : j2 ∈ indexMembers (removeEntry st j).1.groupIndex e.1 := by
        rw [members_eq_of_mem hkeys1 he]
        exact hj2
      by_cases hg : e.1 ∈ old.groups
      · rw [hmembers e.1 hg] at hj2m
        have h1 := List.mem_filter.mp hj2m
        obtain ⟨it, hit, hjj, hgg⟩ := hwf.soundMembers h1.1
        refine ⟨it, (hmem1 it).mpr ⟨hit, ?_⟩, hjj, hgg⟩
        rw [hjj]
        exact of_decide_eq_true h1.2
      · rw [hmembers2 e.1 hg] at hj2m
        obtain ⟨it, hit, hjj, hgg⟩ := hwf.soundMembers hj2m
        refine ⟨it, (hmem1 it).mpr ⟨hit, ?_⟩, hjj, hgg⟩
        intro hc
        apply hg
        have : it = old := by
          apply eq_old_of_mem_jid hwf.jidsNodup ?_ hit
          rw [hc]
          exact hf
        rw [← this]
        exact hgg
    · intro it hit g hg
      obtain ⟨hit0, hne⟩ := (hmem1 it).mp hit
      have hc := hwf.complete it hit0 g hg
      by_cases hgo : g ∈ old.groups
      · rw [hmembers g hgo]
        exact List.mem_filter.mpr ⟨hc, decide_eq_true hne⟩
      · rw [hmembers2 g hgo]
        exact hc
  · intro g
    rw [hev]
    rw [List.count_append]
    rw [show ([REvent.entryRemoved j].count (REvent.groupRemoved g)) = 0
      from by rw [List.count_singleton']; rw [if_neg (fun hc => by cases hc)]]
    rw [removeFromGroups_count _ _ _ _ hwf.keysNodup hogN]
    have hiff : (g ∈ old.groups ∧ indexHasKey st.groupIndex g = true ∧
        (indexMembers st.groupIndex g).filter (fun x => decide (x ≠ j)) = [])
        ↔ (refd st.items g = true ∧
          refd (removeEntry st j).1.items g = false) := by
      constructor
      · rintro ⟨hgo, _, hflt⟩
        constructor
        · exact refd_iff.mpr ⟨old, hold_mem, hgo⟩
        · by_cases hr : refd (removeEntry st j).1.items g = true
          · exfalso
            obtain ⟨it, hit, hne, hgg⟩ := (hrefd1 g).mp hr
            have := hwf.complete it hit g hgg
            have hmem : it.jid ∈ (indexMembers st.groupIndex g).filter
                (fun x => decide (x ≠ j)) :=
              List.mem_filter.mpr ⟨this, decide_eq_true hne⟩
            rw [hflt] at hmem
            cases hmem
          · simpa using hr
      · rintro ⟨hr, hnr⟩
        obtain ⟨it, hit, hgg⟩ := refd_iff.mp hr
        have hito : it = old := by
          by_cases hje : it.jid = j
          · apply eq_old_of_mem_jid hwf.jidsNodup ?_ hit
            rw [hje]
            exact hf
          · exfalso
            rw [(hrefd1 g).mpr ⟨it, hit, hje, hgg⟩] at hnr
            cases hnr
        subst hito
        refine ⟨hgg, ?_, ?_⟩
        · have := hwf.complete it hit g hgg
          exact hasKey_of_members_ne (fun hc => by rw [hc] at this; cases this)
        · by_cases hflt : (indexMembers st.groupIndex g).filter
              (fun x => decide (x ≠ j)) = []
          · exact hflt
          · exfalso
            obtain ⟨x, hx⟩ := List.exists_mem_of_ne_nil _ hflt
            have h1 := List.mem_filter.mp hx
            obtain ⟨it2, hit2, hjj2, hgg2⟩ := hwf.soundMembers h1.1
            have hne2 : it2.jid ≠ j := by
              rw [hjj2]
              exact of_decide_eq_true h1.2
            rw [(hrefd1 g).mpr ⟨it2, hit2, hne2, hgg2⟩] at hnr
            cases hnr
    by_cases hc : g ∈ old.groups ∧ indexHasKey st.groupIndex g = true ∧
        (indexMembers st.groupIndex g).filter (fun x => decide (x ≠ j)) = []
    · rw [if_pos hc, if_pos (hiff.mp hc)]
    · rw [if_neg hc, if_neg (fun hc2 => hc (hiff.mpr hc2))]
  · intro g
    rw [hev, List.count_append]
    rw [count_groupAdded_removeFromGroups]
    rw [show ([REvent.entryRemoved j].count (REvent.groupAdded g)) = 0
      from by rw [List.count_singleton']; rw [if_neg (fun hc => by cases hc)]]
    have hng : ¬(refd st.items g = false ∧
        refd (removeEntry st j).1.items g = true) := by
      rintro ⟨hr, hr1⟩
      obtain ⟨it, hit, hne, hgg⟩ := (hrefd1 g).mp hr1
      rw [refd_iff.mpr ⟨it, hit, hgg⟩] at hr
      cases hr
    rw [if_neg hng]

theorem mem_lostOf {old : Item} {w : WireItem} {g : String} :
    g ∈ lostOf old w ↔ g ∈ old.groups ∧ g ∉ w.groups.dedup := by
  unfold lostOf
  rw [List.mem_filter]
  constructor
  · rintro ⟨h1, h2⟩
    exact ⟨h1, of_decide_eq_true h2⟩
  · rintro ⟨h1, h2⟩
    exact ⟨h1, decide_eq_true h2⟩

theorem mem_gainedOf {old : Item} {w : WireItem} {g : String} :
    g ∈ gainedOf old w ↔ g ∈ w.groups.dedup ∧ g ∉ old.groups := by
  unfold gainedOf
  rw [List.mem_filter]
  constructor
  · rintro ⟨h1, h2⟩
    exact ⟨h1, of_decide_eq_true h2⟩
  · rintro ⟨h1, h2⟩
    exact ⟨h1, decide_eq_true h2⟩

theorem lostOf_nodup {old : Item} (w : WireItem) (h : old.groups.Nodup) :
    (lostOf old w).Nodup := h.filter _

theorem gainedOf_nodup (old : Item) (w : WireItem) :
    (gainedOf old w).Nodup := (List.nodup_dedup _).filter _

/-- The in-place update of a well-formed state stays well-formed; its
group-removed and group-added events count exactly the groups whose last
reference disappeared and whose first reference appeared. -/
theorem updateExisting_spec (st : RosterState) (w : WireItem) (old : Item)
    (hwf : Wf st) (hf : findItem st.items w.jid = some old) :
    Wf (updateExisting st w old).1 ∧
    (∀ g, (updateExisting st w old).2.count (REvent.groupRemoved g) =
      if refd st.items g = true ∧
          refd (updateExisting st w old).1.items g = false
        then 1 else 0) ∧
    (∀ g, (updateExisting st w old).2.count (REvent.groupAdded g) =
      if refd st.items g = false ∧
          refd (updateExisting st w old).1.items g = true
        then 1 else 0) := by
  have hjid : old.jid = w.jid := findItem_some_jid hf
  have hold_mem : old ∈ st.items := findItem_some_mem hf
  have hogN : old.groups.Nodup := hwf.groupsNodup old hold_mem
  have hlostN : (lostOf old w).Nodup := lostOf_nodup w hogN
  have hgainN : (gainedOf old w).Nodup := gainedOf_nodup old w
  have hdisj : ∀ g, g ∈ gainedOf old w → g ∉ lostOf old w := by
    intro g hg hl
    exact (mem_lostOf.mp hl).2 (mem_gainedOf.mp hg).1
  have hitems : (updateExisting st w old).1.items =
      st.items.map (fun it =>
        if it.jid = w.jid then wireFields old.iid old.jid w else it) := rfl
  have hidx : (updateExisting st w old).1.groupIndex =
      (addToGroups
        (removeFromGroups st.groupIndex w.jid (lostOf old w)).1
        w.jid (gainedOf old w)).1 := rfl
  have hnewg : (wireFields old.iid old.jid w).groups = w.groups.dedup := rfl
  have hnew_mem : wireFields old.iid old.jid w ∈
      (updateExisting st w old).1.items := by
    rw [hitems]
    exact List.mem_map.mpr ⟨old, hold_mem, by rw [if_pos hjid]⟩
  have hother_mem : ∀ it ∈ st.items, it.jid ≠ w.jid →
      it ∈ (updateExisting st w old).1.items := by
    intro it hit hne
    rw [hitems]
    exact List.mem_map.mpr ⟨it, hit, by rw [if_neg hne]⟩
  have hmem1 : ∀ it1 ∈ (updateExisting st w old).1.items,
      it1 = wireFields old.iid old.jid w ∨
        (it1 ∈ st.items ∧ it1.jid ≠ w.jid) := by
    intro it1 hit1
    rw [hitems] at hit1
    obtain ⟨it0, hit0, heq⟩ := List.mem_map.mp hit1
    by_cases hj0 : it0.jid = w.jid
    · rw [if_pos hj0] at heq
      exact Or.inl heq.symm
    · rw [if_neg hj0] at heq
      right
      rw [← heq]
      exact ⟨hit0, hj0⟩
  have hrefd1 : ∀ g, refd (updateExisting st w old).1.items g = true ↔
      ((∃ it ∈ st.items, it.jid ≠ w.jid ∧ g ∈ it.groups) ∨
        g ∈ w.groups.dedup) := by
    intro g
    rw [refd_iff]
    constructor
    · rintro ⟨it1, hit1, hg⟩
      rcases hmem1 it1 hit1 with rfl | ⟨hmem, hne⟩
      · right
        rw [← hnewg]
        exact hg
      · exact Or.inl ⟨it1, hmem, hne, hg⟩
    · rintro (⟨it, hit, hne, hg⟩ | hg)
      · exact ⟨it, hother_mem it hit hne, hg⟩
      · refine ⟨wireFields old.iid old.jid w, hnew_mem, ?_⟩
        rw [hnewg]
        exact hg
  have hmem_lost : ∀ g ∈ lostOf old w,
      indexMembers (updateExisting st w old).1.groupIndex g =
        (indexMembers st.groupIndex g).filter (fun x => decide (x ≠ w.jid))
      := by
    intro g hg
    rw [hidx, addToGroups_members_other _ _ _ _ (fun hc => hdisj g hc hg)]
    exact removeFromGroups_members_self _ _ _ _ hwf.keysNodup hlostN hg
  have hmem_gained : ∀ g ∈ gainedOf old w,
      indexMembers (updateExisting st w old).1.groupIndex g =
        indexMembers st.groupIndex g ++ [w.jid] := by
    intro g hg
    rw [hidx, addToGroups_members_self _ _ _ _ hgainN hg,
      removeFromGroups_members_other _ _ _ _ (hdisj g hg)]
    rw [if_neg ?_]
    intro hmem
    obtain ⟨it, hit, hjj, hgg⟩ := hwf.soundMembers hmem
    have : it = old := by
      apply eq_old_of_mem_jid hwf.jidsNodup ?_ hit
      rw [hjj]
      exact hf
    apply (mem_gainedOf.mp hg).2
    rw [← this]
    exact hgg
  have hmem_other : ∀ g, g ∉ lostOf old w → g ∉ gainedOf old w →
      indexMembers (updateExisting st w old).1.groupIndex g =
        indexMembers st.groupIndex g := by
    intro g hl hgn
    rw [hidx, addToGroups_members_other _ _ _ _ hgn,
      removeFromGroups_members_other _ _ _ _ hl]
  have hkeys1 : ((updateExisting st w old).1.groupIndex.map Prod.fst).Nodup
      := by
    rw [hidx]
    exact addToGroups_keys_nodup _ _ _
      (hwf.keysNodup.sublist (removeFromGroups_keys_sublist _ _ _))
  refine ⟨?_, ?_, ?_⟩
  · refine ⟨?_, ?_, hkeys1, ?_, ?_, ?_⟩
    · rw [hitems, List.map_map]
      have : ∀ it ∈ st.items,
          (Item.jid ∘ fun it =>
            if it.jid = w.jid then wireFields old.iid old.jid w else it) it
            = Item.jid it := by
        intro it hit
        by_cases hj : it.jid = w.jid
        · simp only [Function.comp, if_pos hj, wireFields]
          rw [hjid, hj]
        · simp only [Function.comp, if_neg hj]
      rw [List.map_congr_left this]
      exact hwf.jidsNodup
    · intro it1 hit1
      rcases hmem1 it1 hit1 with rfl | ⟨hmem, _⟩
      · rw [hnewg]
        exact List.nodup_dedup _
      · exact hwf.groupsNodup it1 hmem
    · rw [hidx]
      exact addToGroups_nonempty _ _ _
        (removeFromGroups_nonempty _ _ _ hwf.entriesNonempty)
    · intro e he j2 hj2
      have hj2m : j2 ∈ indexMembers (updateExisting st w old).1.groupIndex e.1
          := by
        rw [members_eq_of_mem hkeys1 he]
        exact hj2
      by_cases hl : e.1 ∈ lostOf old w
      · rw [hmem_lost e.1 hl] at hj2m
        have h1 := List.mem_filter.mp hj2m
        obtain ⟨it, hit, hjj, hgg⟩ := hwf.soundMembers h1.1
        have hne : it.jid ≠ w.jid := by
          rw [hjj]
          exact of_decide_eq_true h1.2
        exact ⟨it, hother_mem it hit hne, hjj, hgg⟩
      · by_cases hgn : e.1 ∈ gainedOf old w
        · rw [hmem_gained e.1 hgn] at hj2m
          rcases List.mem_append.mp hj2m with hj2m | hj2m
          · obtain ⟨it, hit, hjj, hgg⟩ := hwf.soundMembers hj2m
            have hne : it.jid ≠ w.jid := by
              intro hc
              have : it = old := by
                apply eq_old_of_mem_jid hwf.jidsNodup ?_ hit
                rw [hc]
                exact hf
              apply (mem_gainedOf.mp hgn).2
              rw [← this]
              exact hgg
            exact ⟨it, hother_mem it hit hne, hjj, hgg⟩
          · refine ⟨wireFields old.iid old.jid w, hnew_mem, ?_, ?_⟩
            · rw [List.mem_singleton.mp hj2m]
              exact hjid
            · rw [hnewg]
              exact (mem_gainedOf.mp hgn).1
        · rw [hmem_other e.1 hl hgn] at hj2m
          obtain ⟨it, hit, hjj, hgg⟩ := hwf.soundMembers hj2m
          by_cases hne : it.jid = w.jid
          · have hito : it = old := by
              apply eq_old_of_mem_jid hwf.jidsNodup ?_ hit
              rw [hne]
              exact hf
            refine ⟨wireFields old.iid old.jid w, hnew_mem, ?_, ?_⟩
            · rw [show (wireFields old.iid old.jid w).jid = old.jid from rfl,
                hjid, ← hne, hjj]
            · rw [hnewg]
              by_cases hdg : e.1 ∈ w.groups.dedup
              · exact hdg
              · exfalso
                apply hl
                rw [mem_lostOf]
                refine ⟨?_, hdg⟩
                rw [hito] at hgg
                exact hgg
          · exact ⟨it, hother_mem it hit hne, hjj, hgg⟩
    · intro it1 hit1 g hg
      rcases hmem1 it1 hit1 with rfl | ⟨hmem, hne⟩
      · rw [hnewg] at hg
        rw [show (wireFields old.iid old.jid w).jid = old.jid from rfl, hjid]
        by_cases hgn : g ∈ gainedOf old w
        · rw [hmem_gained g hgn]
          exact List.mem_append_right _ (List.mem_singleton.mpr rfl)
        · have hgo : g ∈ old.groups := by
            by_cases hgo : g ∈ old.groups
            · exact hgo
            · exact absurd (mem_gainedOf.mpr ⟨hg, hgo⟩) hgn
          have hl : g ∉ lostOf old w := by
            intro hc
            exact (mem_lostOf.mp hc).2 hg
          rw [hmem_other g hl hgn]
          have := hwf.complete old hold_mem g hgo
          rw [hjid] at this
          exact this
      · have hc := hwf.complete it1 hmem g hg
        by_cases hl : g ∈ lostOf old w
        · rw [hmem_lost g hl]
          exact List.mem_filter.mpr ⟨hc, decide_eq_true hne⟩
        · by_cases hgn : g ∈ gainedOf old w
          · rw [hmem_gained g hgn]
            exact List.mem_append_left _ hc
          · rw [hmem_other g hl hgn]
            exact hc
  · intro g
    have hzero : (updateExisting st w old).2.count (REvent.groupRemoved g) =
        (removeFromGroups st.groupIndex w.jid (lostOf old w)).2.count
          (REvent.groupRemoved g) := by
      show ((((if old.name = w.name then [] else [REvent.entryNameChanged w.jid])
          ++ (if old.subscription = w.subscription ∧ old.ask = w.ask ∧
              old.approved = w.approved then []
            else [REvent.entrySubscriptionStateChanged w.jid]))
          ++ (lostOf old w).map (fun g2 => REvent.entryRemovedFromGroup w.jid g2)
          ++ (removeFromGroups st.groupIndex w.jid (lostOf old w)).2
          ++ (gainedOf old w).map (fun g2 => REvent.entryAddedToGroup w.jid g2)
          ++ (addToGroups
            (removeFromGroups st.groupIndex w.jid (lostOf old w)).1
            w.jid (gainedOf old w)).2).count (REvent.groupRemoved g)) = _
      simp only [List.count_append]
      rw [count_group_ite_entry _ _ _ (fun hc => by cases hc),
        count_group_ite_entry _ _ _ (fun hc => by cases hc),
        count_map_removedFromGroup_group _ _ _ (fun g2 hc => by cases hc),
        count_map_addedToGroup_group _ _ _ (fun g2 hc => by cases hc),
        count_groupRemoved_addToGroups]
      omega
    rw [hzero, removeFromGroups_count _ _ _ _ hwf.keysNodup hlostN]
    have hiff : (g ∈ lostOf old w ∧ indexHasKey st.groupIndex g = true ∧
        (indexMembers st.groupIndex g).filter (fun x => decide (x ≠ w.jid))
          = []) ↔
        (refd st.items g = true ∧
          refd (updateExisting st w old).1.items g = false) := by
      constructor
      · rintro ⟨hl, _, hflt⟩
        constructor
        · exact refd_iff.mpr ⟨old, hold_mem, (mem_lostOf.mp hl).1⟩
        · by_cases hr : refd (updateExisting st w old).1.items g = true
          · exfalso
            rcases (hrefd1 g).mp hr with ⟨it, hit, hne, hgg⟩ | hg
            · have := hwf.complete it hit g hgg
              have hmm : it.jid ∈ (indexMembers st.groupIndex g).filter
                  (fun x => decide (x ≠ w.jid)) :=
                List.mem_filter.mpr ⟨this, decide_eq_true hne⟩
              rw [hflt] at hmm
              cases hmm
            · exact (mem_lostOf.mp hl).2 hg
          · simpa using hr
      · rintro ⟨hr, hnr⟩
        obtain ⟨it, hit, hgg⟩ := refd_iff.mp hr
        have hito : it = old := by
          by_cases hje : it.jid = w.jid
          · apply eq_old_of_mem_jid hwf.jidsNodup ?_ hit
            rw [hje]
            exact hf
          · exfalso
            rw [(hrefd1 g).mpr (Or.inl ⟨it, hit, hje, hgg⟩)] at hnr
            cases hnr
        subst hito
        have hdg : g ∉ w.groups.dedup := by
          intro hc
          rw [(hrefd1 g).mpr (Or.inr hc)] at hnr
          cases hnr
        refine ⟨mem_lostOf.mpr ⟨hgg, hdg⟩, ?_, ?_⟩
        · have := hwf.complete it hit g hgg
          exact hasKey_of_members_ne
            (fun hc => by rw [hc] at this; cases this)
        · by_cases hflt : (indexMembers st.groupIndex g).filter
              (fun x => decide (x ≠ w.jid)) = []
          · exact hflt
          · exfalso
            obtain ⟨x, hx⟩ := List.exists_mem_of_ne_nil _ hflt
            have h1 := List.mem_filter.mp hx
            obtain ⟨it2, hit2, hjj2, hgg2⟩ := hwf.soundMembers h1.1
            have hne2 : it2.jid ≠ w.jid := by
              rw [hjj2]
              exact of_decide_eq_true h1.2
            rw [(hrefd1 g).mpr (Or.inl ⟨it2, hit2, hne2, hgg2⟩)] at hnr
            cases hnr
    by_cases hc : g ∈ lostOf old w ∧ indexHasKey st.groupIndex g = true ∧
        (indexMembers st.groupIndex g).filter (fun x => decide (x ≠ w.jid))
          = []
    · rw [if_pos hc, if_pos (hiff.mp hc)]
    · rw [if_neg hc, if_neg (fun hc2 => hc (hiff.mpr hc2))]
  · intro g
    have hzero : (updateExisting st w old).2.count (REvent.groupAdded g) =
        (addToGroups (removeFromGroups st.groupIndex w.jid (lostOf old w)).1
          w.jid (gainedOf old w)).2.count (REvent.groupAdded g) := by
      show ((((if old.name = w.name then [] else [REvent.entryNameChanged w.jid])
          ++ (if old.subscription = w.subscription ∧ old.ask = w.ask ∧
              old.approved = w.approved then []
            else [REvent.entrySubscriptionStateChanged w.jid]))
          ++ (lostOf old w).map (fun g2 => REvent.entryRemovedFromGroup w.jid g2)
          ++ (removeFromGroups st.groupIndex w.jid (lostOf old w)).2
          ++ (gainedOf old w).map (fun g2 => REvent.entryAddedToGroup w.jid g2)
          ++ (addToGroups
            (removeFromGroups st.groupIndex w.jid (lostOf old w)).1
            w.jid (gainedOf old w)).2).count (REvent.groupAdded g)) = _
      simp only [List.count_append]
      rw [count_group_ite_entry _ _ _ (fun hc => by cases hc),
        count_group_ite_entry _ _ _ (fun hc => by cases hc),
        count_map_removedFromGroup_group _ _ _ (fun g2 hc => by cases hc),
        count_map_addedToGroup_group _ _ _ (fun g2 hc => by cases hc),
        count_groupAdded_removeFromGroups]
      omega
    rw [hzero, addToGroups_count _ _ _ _ hgainN]
    have hiff : (g ∈ gainedOf old w ∧
        indexHasKey (removeFromGroups st.groupIndex w.jid (lostOf old w)).1 g
          = false) ↔
        (refd st.items g = false ∧
          refd (updateExisting st w old).1.items g = true) := by
      constructor
      · rintro ⟨hgn, hk⟩
        rw [removeFromGroups_hasKey_other _ _ _ _ (hdisj g hgn)] at hk
        constructor
        · by_cases hr : refd st.items g = true
          · exfalso
            rw [(hwf.hasKey_iff_refd g).mpr hr] at hk
            cases hk
          · simpa using hr
        · exact (hrefd1 g).mpr (Or.inr (mem_gainedOf.mp hgn).1)
      · rintro ⟨hr, hr1⟩
        have hgn : g ∈ gainedOf old w := by
          rcases (hrefd1 g).mp hr1 with ⟨it, hit, hne, hgg⟩ | hg
          · exfalso
            rw [refd_iff.mpr ⟨it, hit, hgg⟩] at hr
            cases hr
          · refine mem_gainedOf.mpr ⟨hg, ?_⟩
            intro hc
            rw [refd_iff.mpr ⟨old, hold_mem, hc⟩] at hr
            cases hr
        refine ⟨hgn, ?_⟩
        rw [removeFromGroups_hasKey_other _ _ _ _ (hdisj g hgn)]
        by_cases hk : indexHasKey st.groupIndex g = true
        · exfalso
          rw [(hwf.hasKey_iff_refd g).mp hk] at hr
          cases hr
        · simpa using hk
    by_cases hc : g ∈ gainedOf old w ∧
        indexHasKey (removeFromGroups st.groupIndex w.jid (lostOf old w)).1 g
          = false
    · rw [if_pos hc, if_pos (hiff.mp hc)]
    · rw [if_neg hc, if_neg (fun hc2 => hc (hiff.mpr hc2))]

/-- Creating a fresh record keeps the state well-formed; group-removed
events never fire, and a group-added event fires exactly for the groups
becoming referenced. -/
theorem createEntry_spec (st : RosterState) (w : WireItem)
    (hwf : Wf st) (hf : findItem st.items w.jid = none) :
    Wf (createEntry st w).1 ∧
    (∀ g, (createEntry st w).2.count (REvent.groupRemoved g) =
      if refd st.items g = true ∧ refd (createEntry st w).1.items g = false
        then 1 else 0) ∧
    (∀ g, (createEntry st w).2.count (REvent.groupAdded g) =
      if refd st.items g = false ∧ refd (createEntry st w).1.items g = true
        then 1 else 0) := by
  have hno : ∀ it ∈ st.items, it.jid ≠ w.jid := by
    intro it hit
    have := List.find?_eq_none.mp hf it hit
    simpa using this
  have hitems : (createEntry st w).1.items =
      st.items ++ [wireFields st.nextIid w.jid w] := rfl
  have hidx : (createEntry st w).1.groupIndex =
      (addToGroups st.groupIndex w.jid w.groups.dedup).1 := rfl
  have hnewg : (wireFields st.nextIid w.jid w).groups = w.groups.dedup := rfl
  have hnewj : (wireFields st.nextIid w.jid w).jid = w.jid := rfl
  have hnotm : ∀ g, w.jid ∉ indexMembers st.groupIndex g := by
    intro g hmem
    obtain ⟨it, hit, hjj, _⟩ := hwf.soundMembers hmem
    exact hno it hit hjj
  have hmem_in : ∀ g ∈ w.groups.dedup,
      indexMembers (createEntry st w).1.groupIndex g =
        indexMembers st.groupIndex g ++ [w.jid] := by
    intro g hg
    rw [hidx, addToGroups_members_self _ _ _ _ (List.nodup_dedup _) hg,
      if_neg (hnotm g)]
  have hmem_out : ∀ g, g ∉ w.groups.dedup →
      indexMembers (createEntry st w).1.groupIndex g =
        indexMembers st.groupIndex g := by
    intro g hg
    rw [hidx, addToGroups_members_other _ _ _ _ hg]
  have hrefd1 : ∀ g, refd (createEntry st w).1.items g = true ↔
      (refd st.items g = true ∨ g ∈ w.groups.dedup) := by
    intro g
    rw [refd_iff]
    constructor
    · rintro ⟨it, hit, hg⟩
      rw [hitems] at hit
      rcases List.mem_append.mp hit with hit | hit
      · exact Or.inl (refd_iff.mpr ⟨it, hit, hg⟩)
      · right
        rw [List.mem_singleton.mp hit] at hg
        rw [← hnewg]
        exact hg
    · rintro (hr | hg)
      · obtain ⟨it, hit, hg⟩ := refd_iff.mp hr
        exact ⟨it, by rw [hitems]; exact List.mem_append_left _ hit, hg⟩
      · refine ⟨wireFields st.nextIid w.jid w, ?_, ?_⟩
        · rw [hitems]
          exact List.mem_append_right _ (List.mem_singleton.mpr rfl)
        · rw [hnewg]
          exact hg
  have hkeys1 : ((createEntry st w).1.groupIndex.map Prod.fst).Nodup := by
    rw [hidx]
    exact addToGroups_keys_nodup _ _ _ hwf.keysNodup
  refine ⟨⟨?_, ?_, hkeys1, ?_, ?_, ?_⟩, ?_, ?_⟩
  · rw [hitems, List.map_append]
    rw [List.nodup_append]
    refine ⟨hwf.jidsNodup, List.nodup_singleton _, ?_⟩
    intro a ha
    obtain ⟨it, hit, heq⟩ := List.mem_map.mp ha
    rw [List.map_singleton, List.mem_singleton, hnewj]
    rw [← heq]
    exact hno it hit
  · intro it1 hit1
    rw [hitems] at hit1
    rcases List.mem_append.mp hit1 with hit1 | hit1
    · exact hwf.groupsNodup it1 hit1
    · rw [List.mem_singleton.mp hit1, hnewg]
      exact List.nodup_dedup _
  · rw [hidx]
    exact addToGroups_nonempty _ _ _ hwf.entriesNonempty
  · intro e he j2 hj2
    have hj2m : j2 ∈ indexMembers (createEntry st w).1.groupIndex e.1 := by
      rw [members_eq_of_mem hkeys1 he]
      exact hj2
    by_cases hg : e.1 ∈ w.groups.dedup
    · rw [hmem_in e.1 hg] at hj2m
      rcases List.mem_append.mp hj2m with hj2m | hj2m
      · obtain ⟨it, hit, hjj, hgg⟩ := hwf.soundMembers hj2m
        exact ⟨it, by rw [hitems]; exact List.mem_append_left _ hit, hjj, hgg⟩
      · refine ⟨wireFields st.nextIid w.jid w, ?_, ?_, ?_⟩
        · rw [hitems]
          exact List.mem_append_right _ (List.mem_singleton.mpr rfl)
        · rw [List.mem_singleton.mp hj2m, hnewj]
        · rw [hnewg]
          exact hg
    · rw [hmem_out e.1 hg] at hj2m
      obtain ⟨it, hit, hjj, hgg⟩ := hwf.soundMembers hj2m
      exact ⟨it, by rw [hitems]; exact List.mem_append_left _ hit, hjj, hgg⟩
  · intro it1 hit1 g hg
    rw [hitems] at hit1
    rcases List.mem_append.mp hit1 with hit1 | hit1
    · have hc := hwf.complete it1 hit1 g hg
      by_cases hgd : g ∈ w.groups.dedup
      · rw [hmem_in g hgd]
        exact List.mem_append_left _ hc
      · rw [hmem_out g hgd]
        exact hc
    · rw [List.mem_singleton.mp hit1] at hg ⊢
      rw [hnewg] at hg
      rw [hnewj, hmem_in g hg]
      exact List.mem_append_right _ (List.mem_singleton.mpr rfl)
  · intro g
    have hz : (createEntry st w).2.count (REvent.groupRemoved g) = 0 := by
      show ((addToGroups st.groupIndex w.jid w.groups.dedup).2
          ++ [REvent.entryAdded w.jid]).count (REvent.groupRemoved g) = 0
      rw [List.count_append, count_groupRemoved_addToGroups]
      rw [List.count_eq_zero.mpr (fun hc => by
        cases List.mem_singleton.mp hc)]
    rw [hz, if_neg ?_]
    rintro ⟨h1, h2⟩
    rw [(hrefd1 g).mpr (Or.inl h1)] at h2
    cases h2
  · intro g
    have hc : (createEntry st w).2.count (REvent.groupAdded g) =
        if g ∈ w.groups.dedup ∧ indexHasKey st.groupIndex g = false
          then 1 else 0 := by
      show ((addToGroups st.groupIndex w.jid w.groups.dedup).2
          ++ [REvent.entryAdded w.jid]).count (REvent.groupAdded g) = _
      rw [List.count_append, addToGroups_count _ _ _ _ (List.nodup_dedup _)]
      rw [List.count_eq_zero.mpr (fun hc => by
        cases List.mem_singleton.mp hc)]
      omega
    rw [hc]
    have hiff : (g ∈ w.groups.dedup ∧ indexHasKey st.groupIndex g = false) ↔
        (refd st.items g = false ∧ refd (createEntry st w).1.items g = true)
        := by
      constructor
      · rintro ⟨hg, hk⟩
        refine ⟨?_, (hrefd1 g).mpr (Or.inr hg)⟩
        by_cases hr : refd st.items g = true
        · exfalso
          rw [(hwf.hasKey_iff_refd g).mpr hr] at hk
          cases hk
        · simpa using hr
      · rintro ⟨hr, hr1⟩
        have hg : g ∈ w.groups.dedup := by
          rcases (hrefd1 g).mp hr1 with hrr | hg
          · rw [hrr] at hr
            cases hr
          · exact hg
        refine ⟨hg, ?_⟩
        by_cases hk : indexHasKey st.groupIndex g = true
        · exfalso
          rw [(hwf.hasKey_iff_refd g).mp hk] at hr
          cases hr
        · simpa using hk
    by_cases hcc : g ∈ w.groups.dedup ∧ indexHasKey st.groupIndex g = false
    · rw [if_pos hcc, if_pos (hiff.mp hcc)]
    · rw [if_neg hcc, if_neg (fun h2 => hcc (hiff.mpr h2))]

/-- Any single reconciliation step from a well-formed state stays
well-formed and fires group-removed/group-added exactly when the step
kills the last reference / creates the first reference. -/
theorem applyWireItem_wf_counts (st : RosterState) (w : WireItem)
    (hwf : Wf st) :
    Wf (applyWireItem st w).1 ∧
    (∀ g, (applyWireItem st w).2.count (REvent.groupRemoved g) =
      if refd st.items g = true ∧
          refd (applyWireItem st w).1.items g = false
        then 1 else 0) ∧
    (∀ g, (applyWireItem st w).2.count (REvent.groupAdded g) =
      if refd st.items g = false ∧
          refd (applyWireItem st w).1.items g = true
        then 1 else 0) := by
  unfold applyWireItem
  by_cases hrem : w.subscription = "remove"
  · rw [if_pos hrem]
    cases hf : findItem st.items w.jid with
    | none =>
      have h0 : removeEntry st w.jid = (st, []) := by
        unfold removeEntry
        rw [hf]
      rw [h0]
      refine ⟨hwf, ?_, ?_⟩ <;> intro g
      · rw [List.count_nil, if_neg ?_]
        rintro ⟨h1, h2⟩
        rw [h1] at h2
        cases h2
      · rw [List.count_nil, if_neg ?_]
        rintro ⟨h1, h2⟩
        rw [h1] at h2
        cases h2
    | some old => exact removeEntry_spec st w.jid old hwf hf
  · rw [if_neg hrem]
    unfold updateEntry
    cases hf : findItem st.items w.jid with
    | none => exact createEntry_spec st w hwf hf
    | some old => exact updateExisting_spec st w old hwf hf

/-- The fold of reconciliation steps preserves well-formedness. -/
theorem Wf_applyItems (st : RosterState) (ws : List WireItem)
    (hwf : Wf st) : Wf (applyItems st ws).1 := by
  induction ws generalizing st with
  | nil => exact hwf
  | cons w rest ih =>
    show Wf (applyItems (applyWireItem st w).1 rest).1
    exact ih _ (applyWireItem_wf_counts st w hwf).1

/-- If a step fires `entryRemoved j`, no record with address `j` remains
in the step's result state. -/
theorem applyWireItem_entryRemoved_not_stored (st : RosterState)
    (w : WireItem) (j : String)
    (h : REvent.entryRemoved j ∈ (applyWireItem st w).2) :
    ∀ it ∈ (applyWireItem st w).1.items, it.jid ≠ j := by
  unfold applyWireItem at h ⊢
  by_cases hrem : w.subscription = "remove"
  · rw [if_pos hrem] at h ⊢
    unfold removeEntry at h ⊢
    cases hf : findItem st.items w.jid with
    | none =>
      rw [hf] at h
      cases h
    | some old =>
      rw [hf] at h
      simp only [] at h ⊢
      have hj : j = w.jid := by
        rcases List.mem_append.mp h with h | h
        · obtain ⟨g, hg⟩ := removeFromGroups_shape _ _ _ _ h
          cases hg
        · exact REvent.entryRemoved.inj (List.mem_singleton.mp h)
      intro it hit
      rw [hj]
      exact of_decide_eq_true (List.mem_filter.mp hit).2
  · exfalso
    rw [if_neg hrem] at h
    unfold updateEntry at h
    cases hf : findItem st.items w.jid with
    | some old =>
      rw [hf] at h
      simp only [] at h
      rcases List.mem_append.mp h with h | h
      rotate_left
      · obtain ⟨g, hg⟩ := addToGroups_shape _ _ _ _ h
        cases hg
      rcases List.mem_append.mp h with h | h
      rotate_left
      · obtain ⟨g, _, hg⟩ := List.mem_map.mp h
        cases hg
      rcases List.mem_append.mp h with h | h
      rotate_left
      · obtain ⟨g, hg⟩ := removeFromGroups_shape _ _ _ _ h
        cases hg
      rcases List.mem_append.mp h with h | h
      rotate_left
      · obtain ⟨g, _, hg⟩ := List.mem_map.mp h
        cases hg
      rcases List.mem_append.mp h with h | h
      · by_cases hc : old.name = w.name
        · rw [if_pos hc] at h
          cases h
        · rw [if_neg hc] at h
          cases (List.mem_singleton.mp h)
      · by_cases hc : old.subscription = w.subscription ∧ old.ask = w.ask ∧
            old.approved = w.approved
        · rw [if_pos hc] at h
          cases h
        · rw [if_neg hc] at h
          cases (List.mem_singleton.mp h)
    | none =>
      rw [hf] at h
      simp only [] at h
      rcases List.mem_append.mp h with h | h
      · obtain ⟨g, hg⟩ := addToGroups_shape _ _ _ _ h
        cases hg
      · cases (List.mem_singleton.mp h)

/-- Over a whole fold from a well-formed state: every `entryRemoved j`
emission is paired with a listener-observed state whose group index no
longer lists `j` anywhere. -/
theorem applyItems_entryRemoved_pruned (st : RosterState)
    (ws : List WireItem) (hwf : Wf st) :
    ∀ p ∈ (applyItems st ws).2, ∀ j, p.2 = REvent.entryRemoved j →
      ∀ g, j ∉ indexMembers p.1.groupIndex g := by
  induction ws generalizing st with
  | nil =>
    intro p hp
    cases hp
  | cons w rest ih =>
    intro p hp j hj g hmem
    have hwf1 : Wf (applyWireItem st w).1 := (applyWireItem_wf_counts st w hwf).1
    have hp2 : p ∈ ((applyWireItem st w).2.map
          (fun e => ((applyWireItem st w).1, e)))
        ++ (applyItems (applyWireItem st w).1 rest).2 := hp
    rcases List.mem_append.mp hp2 with hp3 | hp3
    · obtain ⟨e, hee, heq⟩ := List.mem_map.mp hp3
      rw [← heq] at hj hmem
      have he : e = REvent.entryRemoved j := hj
      rw [he] at hee
      have hmem2 : j ∈ indexMembers (applyWireItem st w).1.groupIndex g :=
        hmem
      obtain ⟨it, hit, hjj, _⟩ := hwf1.soundMembers hmem2
      exact applyWireItem_entryRemoved_not_stored st w j hee it hit hjj
    · exact ih _ hwf1 p hp3 j hj g hmem

theorem mkImportItems_jids (base : Nat) (l : List (String × ItemJson)) :
    (mkImportItems base l).map Item.jid = l.map Prod.fst := by
  induction l generalizing base with
  | nil => rfl
  | cons p rest ih =>
    cases p with
    | mk j dj =>
      show (Item.update_from_json
            { iid := base, jid := j, subscription := "none", ask := none,
              approved := false, name := none, groups := [] } dj).jid
          :: (mkImportItems (base + 1) rest).map Item.jid
          = j :: rest.map Prod.fst
      rw [ih]
      rfl

theorem mkImportItems_groups (base : Nat) (l : List (String × ItemJson)) :
    ∀ it ∈ mkImportItems base l, it.groups.Nodup := by
  induction l generalizing base with
  | nil =>
    intro it hit
    cases hit
  | cons p rest ih =>
    intro it hit
    cases p with
    | mk j dj =>
      rcases List.mem_cons.mp hit with rfl | hit2
      · exact List.nodup_dedup _
      · exact ih _ it hit2

theorem buildIndex_keys (items : List Item) :
    (buildIndex items).map Prod.fst = (items.map Item.groups).flatten.dedup
    := by
  unfold buildIndex
  rw [List.map_map]
  exact List.map_id _

/-- A state whose index is rebuilt from scratch from its items is
well-formed, provided the addresses are distinct and each group list is
duplicate-free. -/
theorem Wf_buildIndex (items : List Item) (v : Option String) (n : Nat)
    (h1 : (items.map Item.jid).Nodup) (h2 : ∀ it ∈ items, it.groups.Nodup) :
    Wf { items := items, groupIndex := buildIndex items, ver := v,
         nextIid := n } := by
  have hkeys : ((buildIndex items).map Prod.fst).Nodup := by
    rw [buildIndex_keys]
    exact List.nodup_dedup _
  refine ⟨h1, h2, hkeys, ?_, ?_, ?_⟩
  · intro e he
    obtain ⟨g, hgd, heq⟩ := List.mem_map.mp he
    rw [← heq]
    obtain ⟨l, hl, hgl⟩ :=
      List.mem_flatten.mp (List.mem_dedup.mp hgd)
    obtain ⟨it, hit, hleq⟩ := List.mem_map.mp hl
    have hitf : it ∈ items.filter (fun it => decide (g ∈ it.groups)) := by
      refine List.mem_filter.mpr ⟨hit, decide_eq_true ?_⟩
      rw [hleq]
      exact hgl
    exact List.ne_nil_of_mem (List.mem_map.mpr ⟨it, hitf, rfl⟩)
  · intro e he j hj
    obtain ⟨g, hgd, heq⟩ := List.mem_map.mp he
    rw [← heq] at hj
    obtain ⟨it, hitf, hjeq⟩ := List.mem_map.mp hj
    have h3 := List.mem_filter.mp hitf
    refine ⟨it, h3.1, hjeq, ?_⟩
    rw [← heq]
    exact of_decide_eq_true h3.2
  · intro it hit g hg
    have hgd : g ∈ (items.map Item.groups).flatten.dedup :=
      List.mem_dedup.mpr (List.mem_flatten.mpr
        ⟨it.groups, List.mem_map.mpr ⟨it, hit, rfl⟩, hg⟩)
    have he : (g, (items.filter (fun it => decide (g ∈ it.groups))).map
        Item.jid) ∈ buildIndex items :=
      List.mem_map.mpr ⟨g, hgd, rfl⟩
    have hm := members_eq_of_mem hkeys he
    show it.jid ∈ indexMembers (buildIndex items) g
    rw [hm]
    exact List.mem_map.mpr
      ⟨it, List.mem_filter.mpr ⟨hit, decide_eq_true hg⟩, rfl⟩

/-- The import path yields a well-formed state whenever the JSON object's
keys are distinct (as they are in any JSON object). -/
theorem import_wf (st : RosterState) (d : RosterJson)
    (hnd : (d.items.map Prod.fst).Nodup) : Wf (import_from_json st d).1 := by
  have h1 : ((mkImportItems st.nextIid d.items).map Item.jid).Nodup := by
    rw [mkImportItems_jids]
    exact hnd
  exact Wf_buildIndex (mkImportItems st.nextIid d.items) d.ver
    (st.nextIid + d.items.length) h1 (mkImportItems_groups _ _)

/-- Modelled from the spec: the three state-changing roster operations
(spec §4.1, §6): a push merge, the initial snapshot merge (with the
addresses already touched by concurrently applied pushes), and the JSON
bulk import. -/
inductive ROp where
  | push (q : Query)
  | snapshot (touched : List String) (q : Query)
  | importJson (d : RosterJson)

/-- Dispatch one roster operation on the state. -/
def applyOp (st : RosterState) : ROp → RosterState × List Emit
  | ROp.push q => applyPush st q
  | ROp.snapshot touched q => mergeSnapshot touched st q
  | ROp.importJson d => import_from_json st d

/-- The per-item work list an operation folds over the state (empty for
the bulk import, which bypasses the per-item merge path). -/
def opWorkList (st : RosterState) : ROp → List WireItem
  | ROp.push q => q.items
  | ROp.snapshot touched q => snapshotWorkList touched st q
  | ROp.importJson _ => []

/-- Is the operation one of the two event-emitting merge paths? -/
def isMerge : ROp → Bool
  | ROp.importJson _ => false
  | _ => true

theorem Wf_applyOp (st : RosterState) (op : ROp) (hwf : Wf st)
    (hok : ∀ d, op = ROp.importJson d → (d.items.map Prod.fst).Nodup) :
    Wf (applyOp st op).1 := by
  cases op with
  | push q => exact Wf_applyItems st q.items hwf
  | snapshot touched q =>
    exact Wf_applyItems st (snapshotWorkList touched st q) hwf
  | importJson d => exact import_wf st d (hok d rfl)

/-- C2 (amended): starting from a well-formed state, every roster
operation (push merge, snapshot merge, JSON import with its
distinct-keys input) keeps the state well-formed, and afterwards a group
name is a key of the index iff at least one stored item references it.
Along the two event-emitting merge paths, every per-item reconciliation
step fires exactly one group-removed(g) event iff that step removes the
last reference to g, and exactly one group-added(g) event iff it adds
the first reference.  The JSON import, however, emits no events at all,
so the original claim's "the operation that removes the last item
referencing g fires exactly one group-removed(g) event" does not extend
to the import operation. -/
theorem group_index_invariant_and_exactly_once (st : RosterState)
    (op : ROp) (hwf : Wf st)
    (hok : ∀ d, op = ROp.importJson d → (d.items.map Prod.fst).Nodup) :
    (Wf (applyOp st op).1 ∧
      (∀ g, indexHasKey (applyOp st op).1.groupIndex g = true ↔
        refd (applyOp st op).1.items g = true)) ∧
    (isMerge op = true → ∀ l1 w l2, opWorkList st op = l1 ++ w :: l2 →
      (∀ g, (applyWireItem (applyItems st l1).1 w).2.count
          (REvent.groupRemoved g) =
        if refd (applyItems st l1).1.items g = true ∧
            refd (applyWireItem (applyItems st l1).1 w).1.items g = false
          then 1 else 0) ∧
      (∀ g, (applyWireItem (applyItems st l1).1 w).2.count
          (REvent.groupAdded g) =
        if refd (applyItems st l1).1.items g = false ∧
            refd (applyWireItem (applyItems st l1).1 w).1.items g = true
          then 1 else 0)) ∧
    (∀ d, op = ROp.importJson d → (applyOp st op).2 = []) := by
  have hwfo := Wf_applyOp st op hwf hok
  refine ⟨⟨hwfo, fun g => hwfo.hasKey_iff_refd g⟩, ?_, ?_⟩
  · intro _ l1 w _ _
    have hwf1 : Wf (applyItems st l1).1 := Wf_applyItems st l1 hwf
    exact ⟨(applyWireItem_wf_counts _ w hwf1).2.1,
      (applyWireItem_wf_counts _ w hwf1).2.2⟩
  · intro d hd
    rw [hd]
    rfl

/-- A one-item, one-group store used as the concrete scenario for the
group-index claims. -/
def c2State : RosterState :=
  { items := [{ iid := 0, jid := "user@a.example", subscription := "both",
                ask := none, approved := false, name := none,
                groups := ["a"] }],
    groupIndex := [("a", ["user@a.example"])],
    ver := none,
    nextIid := 1 }

/-- An empty roster dump: importing it drops every stored item. -/
def c2Import : RosterJson := { items := [], ver := none }

/-- A push introducing a second address with a name. -/
def c2PushOp : ROp :=
  ROp.push { items := [{ jid := "user@b.example", name := some "x" }],
             ver := none }

/-- C2 counterexample: importing an empty JSON dump into a well-formed
one-item store removes the last item referencing group "a" (the group is
referenced before and unreferenced after the operation), yet the import
fires zero group-removed events — not exactly one, refuting the original
claim for the JSON-import operation. -/
theorem group_removed_exactly_once_counterexample :
    Wf c2State ∧
    refd c2State.items "a" = true ∧
    refd (applyOp c2State (ROp.importJson c2Import)).1.items "a" = false ∧
    countEv (applyOp c2State (ROp.importJson c2Import)).2
      (REvent.groupRemoved "a") = 0 := by
  refine ⟨?_, ?_, ?_, ?_⟩
  · unfold Wf
    decide
  · decide
  · decide
  · decide

/-- C2 witness: the amended theorem applied to the concrete one-item
store and a concrete push. -/
theorem group_index_invariant_and_exactly_once_witness :
    Wf c2State ∧
    (indexHasKey (applyOp c2State c2PushOp).1.groupIndex "a" = true ↔
      refd (applyOp c2State c2PushOp).1.items "a" = true) :=
  ⟨by unfold Wf; decide,
   (group_index_invariant_and_exactly_once c2State c2PushOp
      (by unfold Wf; decide)
      (fun d h => ROp.noConfusion h)).1.2 "a"⟩

/-- C7: whenever one of the two merge paths emits an entry-removed
event, the state the event's listeners observe has the removed address
in no group's member list: the index pruning for all of the item's prior
groups commits before the entry-removed event fires. -/
theorem entry_removed_sees_pruned_index (st : RosterState) (op : ROp)
    (hwf : Wf st) (hm : isMerge op = true) :
    ∀ p ∈ (applyOp st op).2, ∀ j, p.2 = REvent.entryRemoved j →
      ∀ g, j ∉ indexMembers p.1.groupIndex g := by
  cases op with
  | push q =>
    intro p hp
    exact applyItems_entryRemoved_pruned st q.items hwf p hp
  | snapshot touched q =>
    intro p hp j hj g
    have hp2 : p ∈ (applyItems st (snapshotWorkList touched st q)).2
        ++ [({ (applyItems st (snapshotWorkList touched st q)).1 with
               ver := q.ver }, REvent.initialRosterReceived)] := hp
    rcases List.mem_append.mp hp2 with hp3 | hp3
    · exact applyItems_entryRemoved_pruned st _ hwf p hp3 j hj g
    · rw [List.mem_singleton.mp hp3] at hj
      cases hj
  | importJson d => cases hm

/-- A push removing the only stored address. -/
def c7Op : ROp :=
  ROp.push { items := [{ jid := "user@a.example",
                         subscription := "remove" }],
             ver := none }

/-- The entry-removed emission of that push, paired with the state its
listeners observe. -/
def c7Emit : Emit :=
  ((applyWireItem c2State
      { jid := "user@a.example", subscription := "remove" }).1,
   REvent.entryRemoved "user@a.example")

/-- C7 witness: the theorem applied to the concrete one-item store and
the push that removes its only entry. -/
theorem entry_removed_sees_pruned_index_witness :
    Wf c2State ∧ isMerge c7Op = true ∧
    c7Emit ∈ (applyOp c2State c7Op).2 ∧
    c7Emit.2 = REvent.entryRemoved "user@a.example" ∧
    "user@a.example" ∉ indexMembers c7Emit.1.groupIndex "a" :=
  ⟨by unfold Wf; decide, rfl, by decide, rfl,
   entry_removed_sees_pruned_index c2State c7Op (by unfold Wf; decide) rfl
     c7Emit (by decide) "user@a.example" rfl "a"⟩

end Roster

namespace Muc

/-- Modelled from the spec: the leave-mode tag attached to every
occupant departure (spec §3). -/
inductive LeaveMode where
  | normal
  | kicked
  | banned
  | error
  | affiliationChange
  | disconnected
  | systemShutdown
deriving Repr, DecidableEq

/-- Modelled from the spec: a room session's local view — its own
nickname, its occupant set (by nickname), and whether it is ACTIVE
(spec §3, §4.2). -/
structure Session where
  selfNick : String
  occupants : List String := []
  active : Bool := true
deriving Repr, DecidableEq

/-- The events a room session fires on an unavailable presence
(spec §4.2): `exited` at the departing occupant's own session,
`occupantLeft` at every other session. -/
inductive MEvent where
  | exited (mode : LeaveMode) (reason : Option String)
  | occupantLeft (nick : String) (mode : LeaveMode) (reason : Option String)
deriving Repr, DecidableEq

/-- Modelled from the spec: the room's reflected presence for an
occupant — the server's resulting presence update is the source of
truth for role/affiliation operations (spec §4.2). -/
structure MucPresence where
  nick : String
  available : Bool
  statusCodes : List Nat := []
  reason : Option String := none
deriving Repr, DecidableEq

/-- Modelled from the spec: the status-code heuristic classifying an
unavailable presence into a leave mode (spec §4.2 / §3: code 307 marks a
kick, code 301 a ban). -/
def classifyLeave (codes : List Nat) : LeaveMode :=
  if 307 ∈ codes then LeaveMode.kicked
  else if 301 ∈ codes then LeaveMode.banned
  else LeaveMode.normal

/-- Modelled from the spec: the privileged role-set operation — the
server turns a role change to "none" into an unavailable presence
carrying the kick status code, any other role into an availability
update (spec §4.2). -/
def muc_set_role (nick : String) (role : String) (reason : Option String) :
    MucPresence :=
  if role = "none" then
    { nick := nick, available := false, statusCodes := [307],
      reason := reason }
  else
    { nick := nick, available := true, statusCodes := [], reason := reason }

/-- Modelled from the spec: the privileged affiliation-set operation —
an affiliation change to "outcast" becomes an unavailable presence
carrying the ban status code (spec §4.2). -/
def muc_set_affiliation (nick : String) (affiliation : String)
    (reason : Option String) : MucPresence :=
  if affiliation = "outcast" then
    { nick := nick, available := false, statusCodes := [301],
      reason := reason }
  else
    { nick := nick, available := true, statusCodes := [], reason := reason }

/-- An explicit kick delegates to the role-set operation with role
"none" (spec §4.2: "a role change to none is equivalent to a kick"). -/
def kick (nick : String) (reason : Option String) : MucPresence :=
  muc_set_role nick "none" reason

/-- An explicit ban delegates to the affiliation-set operation with
affiliation "outcast" (spec §4.2). -/
def ban (nick : String) (reason : Option String) : MucPresence :=
  muc_set_affiliation nick "outcast" reason

/-- Modelled from the spec: a session's reaction to a reflected
unavailable presence (spec §4.2): the local occupant's own unavailable
presence fires `exited` with the classified mode and leaves the room;
a remote occupant's fires `occupantLeft` with the same classification
and removes the occupant. -/
def handlePresence (s : Session) (p : MucPresence) :
    Session × List MEvent :=
  if p.available then (s, [])
  else
    let mode := classifyLeave p.statusCodes
    if p.nick = s.selfNick then
      ({ s with active := false, occupants := [] },
        [MEvent.exited mode p.reason])
    else
      ({ s with occupants :=
          s.occupants.filter (fun n => decide (n ≠ p.nick)) },
        [MEvent.occupantLeft p.nick mode p.reason])

/-- C6: setting an occupant's role to "none" produces the very same
reflected presence as an explicit kick — so every listener at every
session observes identical events — and at the target's own session it
fires `exited` with mode KICKED while at every other session it fires
`occupantLeft` with mode KICKED; likewise affiliation "outcast" and an
explicit ban coincide and classify as BANNED at both kinds of
session. -/
theorem set_role_none_is_kick_and_outcast_is_ban
    (target observer : Session) (nick : String) (reason : Option String)
    (ht : target.selfNick = nick) (ho : observer.selfNick ≠ nick) :
    (muc_set_role nick "none" reason = kick nick reason ∧
      muc_set_affiliation nick "outcast" reason = ban nick reason) ∧
    ((handlePresence target (muc_set_role nick "none" reason)).2 =
        [MEvent.exited LeaveMode.kicked reason] ∧
      (handlePresence observer (muc_set_role nick "none" reason)).2 =
        [MEvent.occupantLeft nick LeaveMode.kicked reason]) ∧
    ((handlePresence target (muc_set_affiliation nick "outcast" reason)).2 =
        [MEvent.exited LeaveMode.banned reason] ∧
      (handlePresence observer (muc_set_affiliation nick "outcast" reason)).2
        = [MEvent.occupantLeft nick LeaveMode.banned reason]) := by
  have hr : muc_set_role nick "none" reason =
      { nick := nick, available := false, statusCodes := [307],
        reason := reason } := by
    unfold muc_set_role
    rw [if_pos rfl]
  have ha : muc_set_affiliation nick "outcast" reason =
      { nick := nick, available := false, statusCodes := [301],
        reason := reason } := by
    unfold muc_set_affiliation
    rw [if_pos rfl]
  have hck : classifyLeave [307] = LeaveMode.kicked := rfl
  have hcb : classifyLeave [301] = LeaveMode.banned := rfl
  refine ⟨⟨rfl, rfl⟩, ⟨?_, ?_⟩, ⟨?_, ?_⟩⟩
  · rw [hr]
    unfold handlePresence
    rw [if_neg (show ¬(false : Bool) = true from by decide),
      if_pos (show nick = target.selfNick from ht.symm)]
    rfl
  · rw [hr]
    unfold handlePresence
    rw [if_neg (show ¬(false : Bool) = true from by decide),
      if_neg (show ¬nick = observer.selfNick from fun hc => ho hc.symm)]
    rfl
  · rw [ha]
    unfold handlePresence
    rw [if_neg (show ¬(false : Bool) = true from by decide),
      if_pos (show nick = target.selfNick from ht.symm)]
    rfl
  · rw [ha]
    unfold handlePresence
    rw [if_neg (show ¬(false : Bool) = true from by decide),
      if_neg (show ¬nick = observer.selfNick from fun hc => ho hc.symm)]
    rfl

/-- The two concrete sessions of the end-to-end scenario. -/
def secondSession : Session :=
  { selfNick := "secondwitch",
    occupants := ["firstwitch", "secondwitch"],
    active := true }

/-- The kicking moderator's session. -/
def firstSession : Session :=
  { selfNick := "firstwitch",
    occupants := ["firstwitch", "secondwitch"],
    active := true }

/-- C6 witness: the theorem applied at the concrete two-occupant
room. -/
theorem set_role_none_is_kick_witness :
    firstSession.selfNick ≠ "secondwitch" ∧
    (handlePresence secondSession
        (muc_set_role "secondwitch" "none" (some "Thou art no real witch"))).2
      = [MEvent.exited LeaveMode.kicked (some "Thou art no real witch")] ∧
    (handlePresence firstSession
        (muc_set_role "secondwitch" "none" (some "Thou art no real witch"))).2
      = [MEvent.occupantLeft "secondwitch" LeaveMode.kicked
          (some "Thou art no real witch")] :=
  ⟨by decide,
   (set_role_none_is_kick_and_outcast_is_ban secondSession firstSession
      "secondwitch" (some "Thou art no real witch") rfl (by decide)).2.1⟩

end Muc
